import Mathlib

/-!
# Wormhole filter (`src/dram_wf/dramwormholefilter.hpp`)

A shallow embedding of the `WormholeFilter` class: the packed tag table, the hash
adapter, the constructor, `Add` (forward scan plus backward displacement),
`Contain` (64-bit SWAR probe), `Delete` and `SizeInBytes`.

Conventions of the embedding:

* machine integers are natural numbers; every place where the C++ code converts to
  or computes in `uint32_t` / `uint64_t` carries an explicit reduction modulo `2 ^ 32`
  / `2 ^ 64` (`sub32`, `sub64`, `% 2 ^ 32`, ...);
* the storage behind `buckets_` is a map from byte offsets to bytes (`Fin 256`);
  16-bit and 64-bit accesses are little-endian (the layout the x86 build reads);
* a method that mutates the object returns the new object next to its result.
-/

/-! ## Constants (the `#define`s and the static members) -/

/-- BIT_PER_TAG of the source. -/
abbrev BIT_PER_TAG : Nat := 16
/-- BIT_PER_FPT of the source. -/
abbrev BIT_PER_FPT : Nat := 12
/-- TAG_PER_BUK of the source. -/
abbrev TAG_PER_BUK : Nat := 4
/-- TAG_MASK of the source. -/
abbrev TAG_MASK : Nat := 0xFFFF
/-- DIS_MASK of the source. -/
abbrev DIS_MASK : Nat := 0x000F
/-- FPT_MASK of the source. -/
abbrev FPT_MASK : Nat := 0xFFF0
/-- MAX_PROB of the source. -/
abbrev MAX_PROB : Nat := 16

/-- Unsigned 32-bit subtraction `a - b` (wraps modulo `2 ^ 32`). -/
def sub32 (a b : Nat) : Nat := (a % 2 ^ 32 + 2 ^ 32 - b % 2 ^ 32) % 2 ^ 32

/-- Unsigned 64-bit subtraction `a - b` (wraps modulo `2 ^ 64`). -/
def sub64 (a b : Nat) : Nat := (a % 2 ^ 64 + 2 ^ 64 - b % 2 ^ 64) % 2 ^ 64

/-- Bitwise complement of a 64-bit word (`~x`). -/
def not64 (x : Nat) : Nat := 2 ^ 64 - 1 - x % 2 ^ 64

/-- The macro `MOD(idx, num_buckets_)`, i.e. `idx & (num_buckets_ - 1)` with the
subtraction done in `uint32_t`. -/
def MOD (idx num_buckets_ : Nat) : Nat := idx &&& sub32 num_buckets_ 1

/-- The macro `haszero16(x)` on a 64-bit word. -/
def haszero16 (x : Nat) : Nat :=
  sub64 x 0x0001000100010001 &&& not64 x &&& 0x8000800080008000

/-- The macro `hasvalue16(x, n)` on a 64-bit word. -/
def hasvalue16 (x n : Nat) : Nat :=
  haszero16 (x ^^^ ((0x0001000100010001 * n) % 2 ^ 64))

/-- The functor `DRAMWFTwoIndependentMultiplyShift::operator()`: the identity on
64-bit keys (the multiply-shift line is commented out in the source). -/
def hasher_ (key : Nat) : Nat := key % 2 ^ 64

/-- The object state of `class WormholeFilter`: `buckets_` is the byte storage the
pointer refers to (offset from `buckets_` to byte), `num_items_` and `num_buckets_`
are the two counters. -/
structure WormholeFilter where
  /-- Byte at a given offset from the `buckets_` pointer. -/
  buckets_ : Nat → Fin 256
  /-- Member `num_items_` (set to 0 by the constructor and never updated). -/
  num_items_ : Nat
  /-- Member `num_buckets_`. -/
  num_buckets_ : Nat

namespace WormholeFilter

/-- Static member `kBytesPerBucket = (BIT_PER_TAG * TAG_PER_BUK + 7) >> 3`. -/
def kBytesPerBucket : Nat := ((BIT_PER_TAG * TAG_PER_BUK + 7) >>> 3) % 2 ^ 32

/-- Static member `kTagMask = (1ULL << BIT_PER_TAG) - 1`. -/
def kTagMask : Nat := ((1 <<< BIT_PER_TAG) - 1) % 2 ^ 32

/-- Method `IndexHash(uint32_t hv)`: the argument is truncated to 32 bits. -/
def IndexHash (t : WormholeFilter) (hv : Nat) : Nat :=
  (hv % 2 ^ 32) &&& sub32 t.num_buckets_ 1

/-- Method `TagHash(uint32_t hv)`: low `BIT_PER_FPT` bits, with 0 biased to 1. -/
def TagHash (hv : Nat) : Nat :=
  let tag := ((hv % 2 ^ 32) &&& ((1 <<< BIT_PER_FPT) - 1)) % 2 ^ 32
  (tag + if tag = 0 then 1 else 0) % 2 ^ 32

/-- Method `upperpower2(uint64_t x)`. -/
def upperpower2 (x : Nat) : Nat :=
  let x := sub64 x 1
  let x := x ||| (x >>> 1)
  let x := x ||| (x >>> 2)
  let x := x ||| (x >>> 4)
  let x := x ||| (x >>> 8)
  let x := x ||| (x >>> 16)
  let x := x ||| (x >>> 32)
  (x + 1) % 2 ^ 64

/-- Method `ReadTag(i, j)`: the 16-bit little-endian value at byte offset `j << 1`
of bucket `MOD(i, num_buckets_)`, masked with `kTagMask`. The parameters are
`uint32_t`; every caller passes a slot index `j < 4`, and reducing `i` modulo
`2 ^ 32` does not change `MOD(i, num_buckets_)` (see `MOD_mod32`). -/
def ReadTag (t : WormholeFilter) (i j : Nat) : Nat :=
  let i_m := MOD i t.num_buckets_
  let p := kBytesPerBucket * i_m + (j <<< 1)
  let tag := (t.buckets_ p).val + 256 * (t.buckets_ (p + 1)).val
  tag &&& kTagMask

/-- Method `WriteTag(i, j, t)`: stores `t & kTagMask` as a 16-bit little-endian
value into lane `j` of bucket `MOD(i, num_buckets_)` (parameters as for `ReadTag`;
the tag argument is truncated to `uint32_t` before the mask). -/
def WriteTag (t : WormholeFilter) (i j v : Nat) : WormholeFilter :=
  let i_m := MOD i t.num_buckets_
  let p := kBytesPerBucket * i_m
  let tag := (v % 2 ^ 32) &&& kTagMask
  { t with buckets_ := fun a =>
      if a = p + 2 * j then ⟨tag % 256, Nat.mod_lt _ (by decide)⟩
      else if a = p + 2 * j + 1 then ⟨tag / 256 % 256, Nat.mod_lt _ (by decide)⟩
      else t.buckets_ a }

/-- The 64-bit little-endian load `*((uint64_t *)p)` of bucket `i_m`. -/
def load64 (t : WormholeFilter) (i_m : Nat) : Nat :=
  let p := kBytesPerBucket * i_m
  (t.buckets_ p).val + 2 ^ 8 * (t.buckets_ (p + 1)).val
    + 2 ^ 16 * (t.buckets_ (p + 2)).val + 2 ^ 24 * (t.buckets_ (p + 3)).val
    + 2 ^ 32 * (t.buckets_ (p + 4)).val + 2 ^ 40 * (t.buckets_ (p + 5)).val
    + 2 ^ 48 * (t.buckets_ (p + 6)).val + 2 ^ 56 * (t.buckets_ (p + 7)).val

/-- The constructor `WormholeFilter(const uint32_t max_num_keys)`.
`raw` is the content of the storage returned by `new Bucket[num_buckets_]` before
the `memset` (a default-initialised `char` array has indeterminate content); the
`memset` zeroes the first `kBytesPerBucket * num_buckets_` bytes, a product the
source computes in `uint32_t`. Offsets outside the allocation are never accessed
and read as 0 here. -/
def construct (raw : Nat → Fin 256) (max_num_keys : Nat) : WormholeFilter :=
  let num_buckets_ := upperpower2 (max 1 (max_num_keys / TAG_PER_BUK)) % 2 ^ 32
  let n := (kBytesPerBucket * num_buckets_) % 2 ^ 32
  { buckets_ := fun a =>
      if a < n then 0 else if a < kBytesPerBucket * num_buckets_ then raw a else 0
    num_items_ := 0
    num_buckets_ := num_buckets_ }

/-- Method `SizeInBytes()`, a `uint32_t` product. -/
def SizeInBytes (t : WormholeFilter) : Nat :=
  (kBytesPerBucket * t.num_buckets_) % 2 ^ 32

/-- The tag written by a displacement move (the third argument of `WriteTag` on source
line 173): the fingerprint field of `cadi_tag` with its distance raised by `prob`. -/
def movedTag (cadi_tag prob : Nat) : Nat :=
  (cadi_tag &&& FPT_MASK) ||| ((cadi_tag &&& DIS_MASK) + prob)

/-- The two inner `for` loops of the displacement step of `Add` (source lines
164-185): `prob` runs from `MAX_PROB - 1` down to 1, `cadi_tag_idx` from 0 to 3,
and the first slot with `(cadi_tag & DIS_MASK) + prob < MAX_PROB` is selected. -/
def findCadi (t : WormholeFilter) (curr_buck_idx : Nat) : Option (Nat × Nat) :=
  [15, 14, 13, 12, 11, 10, 9, 8, 7, 6, 5, 4, 3, 2, 1].findSome? fun prob =>
    ((List.range TAG_PER_BUK).find? fun cadi_tag_idx =>
      decide ((ReadTag t (sub32 curr_buck_idx prob) cadi_tag_idx &&& DIS_MASK) + prob
        < MAX_PROB)).map fun cadi_tag_idx => (prob, cadi_tag_idx)

/-- The `while ((curr_buck_idx - init_buck_idx) >= MAX_PROB)` loop of `Add` (source
lines 161-190). The result is `(has_cadi, table, curr_buck_idx, curr_tag_idx)` at
loop exit: the flag is `false` when the loop executes `return false`.
Every iteration lowers `curr_buck_idx` by `prob >= 1`, so the recursion is on a
counter `fuel` that only has to be at least `curr_buck_idx`
(see `displace_fuel`). -/
def displace (init_buck_idx : Nat) :
    Nat → WormholeFilter → Nat → Nat → Bool × WormholeFilter × Nat × Nat
  | fuel, t, curr_buck_idx, curr_tag_idx =>
    if MAX_PROB ≤ sub64 curr_buck_idx init_buck_idx then
      match fuel with
      | 0 => (false, t, curr_buck_idx, curr_tag_idx)
      | fuel + 1 =>
        match findCadi t curr_buck_idx with
        | none => (false, t, curr_buck_idx, curr_tag_idx)
        | some (prob, cadi_tag_idx) =>
          let cadi_buck_idx := sub32 curr_buck_idx prob
          let cadi_tag := ReadTag t cadi_buck_idx cadi_tag_idx
          displace init_buck_idx fuel
            (WriteTag t curr_buck_idx curr_tag_idx (movedTag cadi_tag prob))
            cadi_buck_idx cadi_tag_idx
    else (true, t, curr_buck_idx, curr_tag_idx)

/-- The body of `if (ReadTag(curr_buck_idx, curr_tag_idx) == 0)` in `Add` (source
lines 161-192): displacement, then the final `WriteTag` and `return true`. -/
def AddBody (t : WormholeFilter) (init_buck_idx tag curr_buck_idx curr_tag_idx : Nat) :
    Bool × WormholeFilter :=
  match displace init_buck_idx curr_buck_idx t curr_buck_idx curr_tag_idx with
  | (false, t', _, _) => (false, t')
  | (true, t', c, cj) => (true, WriteTag t' c cj ((tag <<< 4) ||| sub64 c init_buck_idx))

/-- The outer `for (curr_buck_idx = init_buck_idx; curr_buck_idx < init_buck_idx +
num_buckets_; curr_buck_idx++)` loop of `Add` with its inner loop over the four
slots. The first argument counts the iterations that remain (`num_buckets_` at the
start); when it reaches 0 the loop condition is false as well, `curr_buck_idx` being
`init_buck_idx + num_buckets_` by then, and the function returns `false`
(see `AddLoop_scan`). -/
def AddLoop (t : WormholeFilter) (init_buck_idx tag : Nat) : Nat → Nat → Bool × WormholeFilter
  | 0, _ => (false, t)
  | n + 1, curr_buck_idx =>
    if curr_buck_idx < init_buck_idx + t.num_buckets_ then
      match (List.range TAG_PER_BUK).find? fun curr_tag_idx =>
          ReadTag t curr_buck_idx curr_tag_idx == 0 with
      | some curr_tag_idx => AddBody t init_buck_idx tag curr_buck_idx curr_tag_idx
      | none => AddLoop t init_buck_idx tag n ((curr_buck_idx + 1) % 2 ^ 32)
    else (false, t)

/-- Method `Add(item)`: the returned pair is the `bool` result and the table after
the call. -/
def Add (t : WormholeFilter) (item : Nat) : Bool × WormholeFilter :=
  let hash := hasher_ item
  let init_buck_idx := IndexHash t hash
  let tag := TagHash (hash >>> 32)
  AddLoop t init_buck_idx tag t.num_buckets_ init_buck_idx

/-- Method `Contain(item)` (a `const` method: it returns the `bool` only). -/
def Contain (t : WormholeFilter) (item : Nat) : Bool :=
  let hash := hasher_ item
  let init_buck_idx := IndexHash t hash
  let tag := TagHash (hash >>> 32)
  (List.range MAX_PROB).any fun prob =>
    let curr_buck_idx_mod := MOD (init_buck_idx + prob) t.num_buckets_
    hasvalue16 (load64 t curr_buck_idx_mod) ((tag <<< 4) ||| prob) != 0

/-- The two nested `for` loops of `Delete`: the first `(prob, curr_tag_idx)`, in
scan order, whose tag equals `(tag << 4) | prob`. -/
def findMatch (t : WormholeFilter) (init_buck_idx tag : Nat) : Option (Nat × Nat) :=
  (List.range MAX_PROB).findSome? fun prob =>
    ((List.range TAG_PER_BUK).find? fun curr_tag_idx =>
      ReadTag t ((init_buck_idx + prob) % 2 ^ 32) curr_tag_idx == ((tag <<< 4) ||| prob)).map
      fun curr_tag_idx => (prob, curr_tag_idx)

/-- Method `Delete(item)`: the returned pair is the `bool` result and the table
after the call. -/
def Delete (t : WormholeFilter) (item : Nat) : Bool × WormholeFilter :=
  let hash := hasher_ item
  let init_buck_idx := IndexHash t hash
  let tag := TagHash (hash >>> 32)
  match findMatch t init_buck_idx tag with
  | some (prob, curr_tag_idx) =>
    (true, WriteTag t ((init_buck_idx + prob) % 2 ^ 32) curr_tag_idx 0)
  | none => (false, t)

/-! ## Vocabulary of the specification -/

/-- The table after a sequence of `Add` calls. -/
def runAdds (t : WormholeFilter) : List Nat → WormholeFilter
  | [] => t
  | k :: ks => runAdds (t.Add k).2 ks

/-- The keys of a sequence of `Add` calls whose call returned `true`. -/
def addedKeys (t : WormholeFilter) : List Nat → List Nat
  | [] => []
  | k :: ks => if (t.Add k).1 then k :: addedKeys (t.Add k).2 ks else addedKeys (t.Add k).2 ks

/-- The keys of the displacement-failure scenario on a 32-bucket table: 64 keys with
home bucket 0 followed by 4 keys with home bucket 16 (every one with fingerprint 1). -/
def fillKeys : List Nat := List.replicate 64 0 ++ List.replicate 4 16

/-- 1 when slot `j` of bucket `i` holds a non-zero tag (is occupied), else 0. -/
def slotOcc (t : WormholeFilter) (i j : Nat) : Nat := if ReadTag t i j = 0 then 0 else 1

/-- Number of occupied slots of bucket `i`. -/
def bucketOcc (t : WormholeFilter) (i : Nat) : Nat :=
  slotOcc t i 0 + slotOcc t i 1 + slotOcc t i 2 + slotOcc t i 3

/-- Number of occupied (non-zero) slots of the table. -/
def occupied (t : WormholeFilter) : Nat :=
  ((List.range t.num_buckets_).map (bucketOcc t)).sum

/-- The bucket count is a power of two that fits `uint32_t` (what the constructor
establishes and no method changes). -/
def PowTwoBuckets (t : WormholeFilter) : Prop := ∃ e, e < 32 ∧ t.num_buckets_ = 2 ^ e

/-- The slot-by-slot membership condition: some probe position `p < 16` and slot
`j < 4` of bucket `h + p` hold the tag `(F << 4) | p`. -/
def Present (t : WormholeFilter) (h F : Nat) : Prop :=
  ∃ p, p < MAX_PROB ∧ ∃ j, j < TAG_PER_BUK ∧ ReadTag t (h + p) j = ((F <<< 4) ||| p)

/-- Reference membership test, read slot by slot (the reading of Query in the
specification without the SWAR word test): some probe position `p < 16` and slot
`j < 4` of bucket `h + p` hold the tag `(F << 4) | p`, with `(h, F)` derived from the
key as in `Contain`. -/
def ContainRef (t : WormholeFilter) (item : Nat) : Bool :=
  (List.range MAX_PROB).any fun p =>
    (List.range TAG_PER_BUK).any fun j =>
      ReadTag t (IndexHash t (hasher_ item) + p) j
        == ((TagHash (hasher_ item >>> 32) <<< 4) ||| p)

/-- Membership witnessed by a slot other than slot `hj` of bucket `hb` (the slot the
displacement loop of `Add` currently treats as free). -/
def PresentExcept (t : WormholeFilter) (hb hj h F : Nat) : Prop :=
  ∃ p, p < 16 ∧ ∃ j, j < 4 ∧
    ¬ ((h + p) % t.num_buckets_ = hb % t.num_buckets_ ∧ j = hj) ∧
    ReadTag t (h + p) j = ((F <<< 4) ||| p)

/-- Predicate: `B` is the least power of two that is at least `m`. -/
def IsLeastPow2 (B m : Nat) : Prop :=
  (∃ e, B = 2 ^ e) ∧ m ≤ B ∧ ∀ e, m ≤ 2 ^ e → B ≤ 2 ^ e

/-- The table after a sequence of `Delete` calls. -/
def runDeletes (t : WormholeFilter) : List Nat → WormholeFilter
  | [] => t
  | k :: ks => runDeletes (t.Delete k).2 ks

/-- One call of a mutating method: `Add(k)` or `Delete(k)`. -/
inductive Op where
  /-- The call `Add(k)`. -/
  | add (k : Nat)
  /-- The call `Delete(k)`. -/
  | delete (k : Nat)

/-- The table after a sequence of `Add` and `Delete` calls. -/
def runOps (t : WormholeFilter) : List Op → WormholeFilter
  | [] => t
  | Op.add k :: ops => runOps (t.Add k).2 ops
  | Op.delete k :: ops => runOps (t.Delete k).2 ops

/-- Every non-zero tag of the table has a fingerprint field (the high 12 bits of the
16-bit tag) of at least 1; the field is at most 4095 because a tag has 16 bits. -/
def FingerprintsOk (t : WormholeFilter) : Prop :=
  ∀ i j, j < 4 → ReadTag t i j ≠ 0 → 1 ≤ ReadTag t i j >>> 4 ∧ ReadTag t i j >>> 4 ≤ 4095

/-- Decoding of the tag `tag` found in bucket `b` of a table of `B` buckets: nothing
for the empty tag 0, else the pair (home, fingerprint) with
`home = (b - (tag & 15)) mod B` and `fingerprint = tag >> 4`. -/
def decodeTag (B b tag : Nat) : Option (Int × Nat) :=
  if tag = 0 then none
  else some (((b : Int) - ((tag &&& DIS_MASK : Nat) : Int)) % (B : Int), tag >>> 4)

/-- The decoded pairs of the four slots of bucket `b`. -/
def decodedBucket (t : WormholeFilter) (b : Nat) : List (Int × Nat) :=
  (decodeTag t.num_buckets_ b (ReadTag t b 0)).toList
    ++ (decodeTag t.num_buckets_ b (ReadTag t b 1)).toList
    ++ (decodeTag t.num_buckets_ b (ReadTag t b 2)).toList
    ++ (decodeTag t.num_buckets_ b (ReadTag t b 3)).toList

/-- The multiset of decoded (home, fingerprint) pairs of all non-zero slots. -/
def decoded (t : WormholeFilter) : Multiset (Int × Nat) :=
  (((List.range t.num_buckets_).flatMap (decodedBucket t) : List (Int × Nat)) :
    Multiset (Int × Nat))

/-- The (home, fingerprint) pair derived from a key. -/
def keyPair (t : WormholeFilter) (item : Nat) : Int × Nat :=
  ((IndexHash t (hasher_ item) : Int), TagHash (hasher_ item >>> 32))

/-- Sum over all slots of the table of a weight `g bucket tag`. -/
def tagSum (g : Nat → Nat → Nat) (t : WormholeFilter) : Nat :=
  ((List.range t.num_buckets_).map fun b =>
    g b (ReadTag t b 0) + g b (ReadTag t b 1) + g b (ReadTag t b 2) + g b (ReadTag t b 3)).sum

/-- Weight 1 for a tag that decodes to the pair `a`, else 0. -/
def pairWeight (B : Nat) (a : Int × Nat) (b tag : Nat) : Nat :=
  if decodeTag B b tag = some a then 1 else 0

end WormholeFilter

/-! ## Machine arithmetic and the slot accessors -/

namespace WormholeFilter

theorem sub32_eq {a b : Nat} (hb : b ≤ a) (ha : a < 2 ^ 32) : sub32 a b = a - b := by
  unfold sub32; omega

theorem sub64_eq {a b : Nat} (hb : b ≤ a) (ha : a < 2 ^ 64) : sub64 a b = a - b := by
  unfold sub64; omega

theorem MOD_eq_mod {t : WormholeFilter} (h : PowTwoBuckets t) (i : Nat) :
    MOD i t.num_buckets_ = i % t.num_buckets_ := by
  obtain ⟨e, he, hB⟩ := h
  have h1 : 1 ≤ 2 ^ e := Nat.one_le_two_pow
  have h2 : 2 ^ e < 2 ^ 32 := Nat.pow_lt_pow_right (by decide) he
  unfold MOD
  rw [hB, sub32_eq h1 h2]
  exact Nat.and_pow_two_sub_one_eq_mod i e

/-- Passing a bucket index through a `uint32_t` parameter does not change the bucket
it selects: the mask `num_buckets_ - 1` fits 32 bits. -/
theorem MOD_mod32 (i B : Nat) : MOD (i % 2 ^ 32) B = MOD i B := by
  unfold MOD
  apply Nat.eq_of_testBit_eq
  intro k
  rw [Nat.testBit_and, Nat.testBit_and, Nat.testBit_mod_two_pow]
  by_cases hk : k < 32
  · simp [hk]
  · have hm : sub32 B 1 < 2 ^ k := by
      have h1 : sub32 B 1 < 2 ^ 32 := by unfold sub32; omega
      exact lt_of_lt_of_le h1 (Nat.pow_le_pow_right (by decide) (by omega))
    rw [Nat.testBit_lt_two_pow hm]
    simp

theorem kBytesPerBucket_eq : kBytesPerBucket = 8 := by decide
theorem kTagMask_eq : kTagMask = 65535 := by decide

theorem and_kTagMask (x : Nat) : x &&& kTagMask = x % 65536 := by
  rw [kTagMask_eq]
  exact Nat.and_pow_two_sub_one_eq_mod x 16

@[simp] theorem WriteTag_num_buckets (t : WormholeFilter) (i j v : Nat) :
    (WriteTag t i j v).num_buckets_ = t.num_buckets_ := rfl

theorem ReadTag_lt (t : WormholeFilter) (i j : Nat) : ReadTag t i j < 65536 := by
  unfold ReadTag
  simp only [and_kTagMask]
  omega

/-- Reading a slot after a write: the written slot holds the stored 16-bit value,
every other slot keeps its content. -/
theorem ReadTag_WriteTag (t : WormholeFilter) (i j v i' j' : Nat) (hj : j < 4) (hj' : j' < 4) :
    ReadTag (WriteTag t i j v) i' j' =
      if MOD i t.num_buckets_ = MOD i' t.num_buckets_ ∧ j = j' then v % 65536
      else ReadTag t i' j' := by
  unfold ReadTag WriteTag
  simp only [and_kTagMask, kBytesPerBucket_eq, Nat.shiftLeft_eq, pow_one]
  generalize MOD i t.num_buckets_ = m
  generalize MOD i' t.num_buckets_ = m'
  rw [Nat.mul_comm j' 2]
  by_cases h : m = m' ∧ j = j'
  · obtain ⟨rfl, rfl⟩ := h
    have e2 : ¬ (8 * m + 2 * j + 1 = 8 * m + 2 * j) := by omega
    simp only [e2, if_true, if_false, and_self]
    omega
  · have e1 : ¬ (8 * m' + 2 * j' = 8 * m + 2 * j) := by omega
    have e2 : ¬ (8 * m' + 2 * j' = 8 * m + 2 * j + 1) := by omega
    have e3 : ¬ (8 * m' + 2 * j' + 1 = 8 * m + 2 * j) := by omega
    have e4 : ¬ (8 * m' + 2 * j' + 1 = 8 * m + 2 * j + 1) := by omega
    simp only [e1, e2, e3, e4, if_false, h]

/-! ## The SWAR word test -/

theorem and_swarMask_ne_zero (z : Nat) :
    z &&& 0x8000800080008000 ≠ 0 ↔
      (z.testBit 15 = true ∨ z.testBit 31 = true ∨ z.testBit 47 = true ∨ z.testBit 63 = true) := by
  have hM : (0x8000800080008000 : Nat) = 2 ^ 15 ||| 2 ^ 31 ||| 2 ^ 47 ||| 2 ^ 63 := by decide
  constructor
  · intro h
    obtain ⟨i, hi⟩ := Nat.ne_zero_implies_bit_true h
    rw [hM] at hi
    simp only [Nat.testBit_and, Nat.testBit_or, Nat.testBit_two_pow, Bool.and_eq_true,
      Bool.or_eq_true, decide_eq_true_eq] at hi
    obtain ⟨hz, hi⟩ := hi
    rcases hi with ((rfl | rfl) | rfl) | rfl
    · exact Or.inl hz
    · exact Or.inr (Or.inl hz)
    · exact Or.inr (Or.inr (Or.inl hz))
    · exact Or.inr (Or.inr (Or.inr hz))
  · intro h hzero
    have key : ∀ i, (i = 15 ∨ i = 31 ∨ i = 47 ∨ i = 63) → z.testBit i = true → False := by
      intro i hi hz
      have : (z &&& 0x8000800080008000).testBit i = true := by
        rw [hM]
        simp only [Nat.testBit_and, Nat.testBit_or, Nat.testBit_two_pow, Bool.and_eq_true,
          Bool.or_eq_true, decide_eq_true_eq]
        refine ⟨hz, ?_⟩
        omega
      rw [hzero] at this
      simp at this
    rcases h with h | h | h | h
    · exact key 15 (by omega) h
    · exact key 31 (by omega) h
    · exact key 47 (by omega) h
    · exact key 63 (by omega) h

/-- Exactness of `haszero16`: the result is non-zero iff one of the four 16-bit lanes
of the word is zero. -/
theorem haszero16_ne_zero_iff (x : Nat) (hx : x < 2 ^ 64) :
    haszero16 x ≠ 0 ↔
      (x % 65536 = 0 ∨ x / 2 ^ 16 % 65536 = 0 ∨ x / 2 ^ 32 % 65536 = 0 ∨ x / 2 ^ 48 % 65536 = 0) := by
  unfold haszero16
  rw [and_swarMask_ne_zero]
  simp only [Nat.testBit_and, Bool.and_eq_true]
  simp only [Nat.testBit_to_div_mod, decide_eq_true_eq]
  unfold sub64 not64
  omega

theorem xor_div_two_pow (a b k : Nat) : (a ^^^ b) / 2 ^ k = a / 2 ^ k ^^^ b / 2 ^ k := by
  simp only [← Nat.shiftRight_eq_div_pow]
  apply Nat.eq_of_testBit_eq
  intro i
  simp only [Nat.testBit_shiftRight, Nat.testBit_xor]

theorem xor_mod_two_pow (a b k : Nat) : (a ^^^ b) % 2 ^ k = a % 2 ^ k ^^^ b % 2 ^ k := by
  apply Nat.eq_of_testBit_eq
  intro i
  simp only [Nat.testBit_mod_two_pow, Nat.testBit_xor]
  cases decide (i < k) <;> simp

/-- Lane `k` of `x ^^^ y` is the xor of the lanes. -/
theorem lane_xor (a b k : Nat) :
    (a ^^^ b) / 2 ^ k % 65536 = (a / 2 ^ k % 65536) ^^^ (b / 2 ^ k % 65536) := by
  rw [xor_div_two_pow]
  exact xor_mod_two_pow _ _ 16

theorem rep16_lanes (n : Nat) (hn : n < 65536) :
    (0x0001000100010001 * n) % 2 ^ 64 % 65536 = n ∧
    (0x0001000100010001 * n) % 2 ^ 64 / 2 ^ 16 % 65536 = n ∧
    (0x0001000100010001 * n) % 2 ^ 64 / 2 ^ 32 % 65536 = n ∧
    (0x0001000100010001 * n) % 2 ^ 64 / 2 ^ 48 % 65536 = n := by
  have h : 0x0001000100010001 * n < 2 ^ 64 := by omega
  rw [Nat.mod_eq_of_lt h]
  have e : 0x0001000100010001 * n = n + 2 ^ 16 * (n + 2 ^ 16 * (n + 2 ^ 16 * n)) := by ring
  rw [e]
  have step : ∀ y, (n + 2 ^ 16 * y) % 65536 = n ∧ (n + 2 ^ 16 * y) / 2 ^ 16 = y := by
    intro y; omega
  have d32 : ∀ z : Nat, z / 2 ^ 32 = z / 2 ^ 16 / 2 ^ 16 := by intro z; omega
  have d48 : ∀ z : Nat, z / 2 ^ 48 = z / 2 ^ 16 / 2 ^ 16 / 2 ^ 16 := by intro z; omega
  rw [d32, d48]
  simp only [(step _).1, (step _).2]
  exact ⟨trivial, trivial, trivial, Nat.mod_eq_of_lt hn⟩

/-- Exactness of `hasvalue16`: the result is non-zero iff one of the four 16-bit
lanes of the word equals `n`. -/
theorem hasvalue16_ne_zero_iff (x n : Nat) (hx : x < 2 ^ 64) (hn : n < 65536) :
    hasvalue16 x n ≠ 0 ↔
      (x % 65536 = n ∨ x / 2 ^ 16 % 65536 = n ∨ x / 2 ^ 32 % 65536 = n ∨ x / 2 ^ 48 % 65536 = n) := by
  unfold hasvalue16
  have hr : (0x0001000100010001 * n) % 2 ^ 64 < 2 ^ 64 := Nat.mod_lt _ (by decide)
  obtain ⟨r0, r1, r2, r3⟩ := rep16_lanes n hn
  rw [haszero16_ne_zero_iff _ (Nat.xor_lt_two_pow hx hr)]
  have h0 := lane_xor x ((0x0001000100010001 * n) % 2 ^ 64) 0
  simp only [pow_zero, Nat.div_one] at h0
  rw [h0, lane_xor _ _ 16, lane_xor _ _ 32, lane_xor _ _ 48, r0, r1, r2, r3]
  simp only [Nat.xor_eq_zero]

theorem load64_lt (t : WormholeFilter) (m : Nat) : load64 t m < 2 ^ 64 := by
  unfold load64
  have h0 := (t.buckets_ (kBytesPerBucket * m)).isLt
  have h1 := (t.buckets_ (kBytesPerBucket * m + 1)).isLt
  have h2 := (t.buckets_ (kBytesPerBucket * m + 2)).isLt
  have h3 := (t.buckets_ (kBytesPerBucket * m + 3)).isLt
  have h4 := (t.buckets_ (kBytesPerBucket * m + 4)).isLt
  have h5 := (t.buckets_ (kBytesPerBucket * m + 5)).isLt
  have h6 := (t.buckets_ (kBytesPerBucket * m + 6)).isLt
  have h7 := (t.buckets_ (kBytesPerBucket * m + 7)).isLt
  simp only [Fin.val] at *
  omega

/-- The four little-endian lanes of the bucket word are the four tags of the
bucket. -/
theorem load64_lanes (t : WormholeFilter) (i : Nat) :
    load64 t (MOD i t.num_buckets_) % 65536 = ReadTag t i 0 ∧
    load64 t (MOD i t.num_buckets_) / 2 ^ 16 % 65536 = ReadTag t i 1 ∧
    load64 t (MOD i t.num_buckets_) / 2 ^ 32 % 65536 = ReadTag t i 2 ∧
    load64 t (MOD i t.num_buckets_) / 2 ^ 48 % 65536 = ReadTag t i 3 := by
  unfold load64 ReadTag
  simp only [and_kTagMask, Nat.shiftLeft_eq]
  generalize kBytesPerBucket * MOD i t.num_buckets_ = p
  have h0 := (t.buckets_ p).isLt
  have h1 := (t.buckets_ (p + 1)).isLt
  have h2 := (t.buckets_ (p + 2)).isLt
  have h3 := (t.buckets_ (p + 3)).isLt
  have h4 := (t.buckets_ (p + 4)).isLt
  have h5 := (t.buckets_ (p + 5)).isLt
  have h6 := (t.buckets_ (p + 6)).isLt
  have h7 := (t.buckets_ (p + 7)).isLt
  have e1 : p + 0 * 2 ^ 1 = p := by omega
  have e2 : p + 1 * 2 ^ 1 = p + 2 := by omega
  have e3 : p + 2 * 2 ^ 1 = p + 4 := by omega
  have e4 : p + 3 * 2 ^ 1 = p + 6 := by omega
  have e5 : p + 2 + 1 = p + 3 := by omega
  have e6 : p + 4 + 1 = p + 5 := by omega
  have e7 : p + 6 + 1 = p + 7 := by omega
  simp only [e1, e2, e3, e4, e5, e6, e7]
  refine ⟨?_, ?_, ?_, ?_⟩ <;> omega

theorem TagHash_pos (hv : Nat) : 1 ≤ TagHash hv := by
  unfold TagHash
  have h : ((1 <<< BIT_PER_FPT) - 1 : Nat) = 2 ^ 12 - 1 := by decide
  simp only [h, Nat.and_pow_two_sub_one_eq_mod]
  split <;> omega

theorem TagHash_lt (hv : Nat) : TagHash hv < 4096 := by
  unfold TagHash
  have h : ((1 <<< BIT_PER_FPT) - 1 : Nat) = 2 ^ 12 - 1 := by decide
  simp only [h, Nat.and_pow_two_sub_one_eq_mod]
  split <;> omega

/-- The needle `(F << 4) | p` as arithmetic. -/
theorem needle_eq (F p : Nat) (hp : p < 16) : (F <<< 4) ||| p = 16 * F + p := by
  rw [Nat.shiftLeft_eq, Nat.mul_comm]
  exact (Nat.mul_add_lt_is_or (i := 4) hp F).symm

/-! ## The loops of `Add` -/

/-- What a selected displacement candidate satisfies. -/
theorem findCadi_some {t : WormholeFilter} {curr prob cj : Nat}
    (h : findCadi t curr = some (prob, cj)) :
    1 ≤ prob ∧ prob ≤ 15 ∧ cj < 4 ∧
      (ReadTag t (sub32 curr prob) cj &&& 15) + prob < 16 := by
  unfold findCadi at h
  simp only [MAX_PROB, DIS_MASK, TAG_PER_BUK] at h
  obtain ⟨a, ha, hf⟩ := List.exists_of_findSome?_eq_some h
  obtain ⟨c, hc, hpc⟩ := Option.map_eq_some'.1 hf
  have hmem := List.mem_of_find?_eq_some hc
  have hp := List.find?_some hc
  simp only [Prod.mk.injEq] at hpc
  obtain ⟨rfl, rfl⟩ := hpc
  simp only [List.mem_range] at hmem
  simp only [decide_eq_true_eq] at hp
  refine ⟨?_, ?_, hmem, hp⟩
  · simp only [List.mem_cons, List.mem_singleton, List.not_mem_nil, or_false] at ha
    omega
  · omega

/-- When no candidate is selected, no slot of the fifteen buckets below qualifies. -/
theorem findCadi_none {t : WormholeFilter} {curr : Nat} (h : findCadi t curr = none) :
    ∀ prob, 1 ≤ prob → prob ≤ 15 → ∀ cj, cj < 4 →
      ¬ ((ReadTag t (sub32 curr prob) cj &&& 15) + prob < 16) := by
  unfold findCadi at h
  simp only [MAX_PROB, DIS_MASK, TAG_PER_BUK] at h
  rw [List.findSome?_eq_none_iff] at h
  intro prob h1 h15 cj hcj
  have hm : prob ∈ [15, 14, 13, 12, 11, 10, 9, 8, 7, 6, 5, 4, 3, 2, 1] := by
    simp only [List.mem_cons, List.mem_singleton]
    omega
  have h2 := h prob hm
  simp only [Option.map_eq_none', List.find?_eq_none, List.mem_range, decide_eq_true_eq] at h2
  exact h2 cj hcj

/-- Invariant rule for the displacement loop: a property of (table, current bucket,
current slot) that every move preserves holds when the loop exits. -/
theorem displace_rule (init : Nat) (P : WormholeFilter → Nat → Nat → Prop)
    (step : ∀ t curr j prob cj, P t curr j → init + 16 ≤ curr → curr < 2 ^ 32 →
      1 ≤ prob → prob ≤ 15 → cj < 4 →
      (ReadTag t (curr - prob) cj &&& 15) + prob < 16 →
      P (WriteTag t curr j (movedTag (ReadTag t (curr - prob) cj) prob)) (curr - prob) cj) :
    ∀ fuel t curr j, P t curr j → init ≤ curr → curr ≤ fuel → curr < 2 ^ 32 →
      ∃ ok t' c cj, displace init fuel t curr j = (ok, t', c, cj) ∧ P t' c cj ∧
        init ≤ c ∧ c ≤ curr ∧
        (ok = true → c < init + 16) ∧
        (ok = false → init + 16 ≤ c ∧ findCadi t' c = none) := by
  intro fuel
  induction fuel with
  | zero =>
    intro t curr j hP hic hcf hc
    have h0 : curr = 0 := by omega
    subst h0
    refine ⟨true, t, 0, j, ?_, hP, hic, le_refl _, fun _ => by omega, fun h => by simp at h⟩
    rw [displace]
    have : ¬ (MAX_PROB ≤ sub64 0 init) := by
      have : init = 0 := by omega
      subst this
      decide
    simp only [this, if_false]
  | succ n ih =>
    intro t curr j hP hic hcf hc
    rw [displace]
    simp only [MAX_PROB]
    have hs : sub64 curr init = curr - init := sub64_eq hic (by omega)
    by_cases hlt : 16 ≤ curr - init
    · simp only [hs, hlt, if_true]
      cases hfc : findCadi t curr with
      | none =>
        exact ⟨false, t, curr, j, rfl, hP, hic, le_refl _, fun h => by simp at h,
          fun _ => ⟨by omega, hfc⟩⟩
      | some pc =>
        obtain ⟨prob, cj⟩ := pc
        obtain ⟨h1, h15, hcj, hcond⟩ := findCadi_some hfc
        have hsub : sub32 curr prob = curr - prob := sub32_eq (by omega) hc
        rw [hsub] at hcond
        simp only [hsub]
        have hP' := step t curr j prob cj hP (by omega) hc h1 h15 hcj hcond
        obtain ⟨ok, t', c, cj', he, hP2, hi2, hc2, hok, hfail⟩ :=
          ih _ (curr - prob) cj hP' (by omega) (by omega) (by omega)
        exact ⟨ok, t', c, cj', he, hP2, hi2, by omega, hok, hfail⟩
    · simp only [hs, hlt, if_false]
      exact ⟨true, t, curr, j, rfl, hP, hic, le_refl _, fun _ => by omega, fun h => by simp at h⟩

/-- The counter of `displace` is immaterial once it is at least `curr_buck_idx`: the
loop never stops for lack of it. -/
theorem displace_fuel (init : Nat) : ∀ f1 f2 t curr j, init ≤ curr → curr ≤ f1 → curr ≤ f2 →
    curr < 2 ^ 32 → displace init f1 t curr j = displace init f2 t curr j := by
  intro f1
  induction f1 with
  | zero =>
    intro f2 t curr j hic h1 h2 hc
    have h0 : curr = 0 := by omega
    have hi : init = 0 := by omega
    subst h0; subst hi
    have : ¬ (MAX_PROB ≤ sub64 0 0) := by decide
    conv_lhs => rw [displace.eq_def]
    conv_rhs => rw [displace.eq_def]
    simp only [this, if_false]
  | succ n ih =>
    intro f2 t curr j hic h1 h2 hc
    have hs : sub64 curr init = curr - init := sub64_eq hic (by omega)
    by_cases hlt : 16 ≤ curr - init
    · cases f2 with
      | zero => omega
      | succ m =>
        conv_lhs => rw [displace.eq_def]
        conv_rhs => rw [displace.eq_def]
        simp only [MAX_PROB, hs, hlt, if_true]
        cases hfc : findCadi t curr with
        | none => rfl
        | some pc =>
          obtain ⟨prob, cj⟩ := pc
          obtain ⟨hp1, hp15, _, _⟩ := findCadi_some hfc
          have hsub : sub32 curr prob = curr - prob := sub32_eq (by omega) hc
          simp only [hsub]
          exact ih m _ (curr - prob) cj (by omega) (by omega) (by omega) (by omega)
    · conv_lhs => rw [displace.eq_def]
      conv_rhs => rw [displace.eq_def]
      simp only [MAX_PROB, hs, hlt, if_false]


/-- The forward scan of `Add`: either every slot of the table is occupied and the
call returns `false` with the table untouched, or the scan stops at the first empty
slot in scan order and runs the body there. -/
theorem AddLoop_scan (t : WormholeFilter) (init tag : Nat)
    (hB : init + t.num_buckets_ < 2 ^ 32) :
    ∀ n curr, curr + n = init + t.num_buckets_ → init ≤ curr →
      (∀ b, init ≤ b → b < curr → ∀ j, j < 4 → ReadTag t b j ≠ 0) →
      (AddLoop t init tag n curr = (false, t) ∧
          ∀ b, init ≤ b → b < init + t.num_buckets_ → ∀ j, j < 4 → ReadTag t b j ≠ 0) ∨
      ∃ c j, init ≤ c ∧ c < init + t.num_buckets_ ∧ j < 4 ∧ ReadTag t c j = 0 ∧
        (∀ b, init ≤ b → b < c → ∀ j, j < 4 → ReadTag t b j ≠ 0) ∧
        (∀ j', j' < j → ReadTag t c j' ≠ 0) ∧
        AddLoop t init tag n curr = AddBody t init tag c j := by
  intro n
  induction n with
  | zero =>
    intro curr hn _ hfull
    left
    refine ⟨rfl, ?_⟩
    intro b hb1 hb2
    exact hfull b hb1 (by omega)
  | succ n ih =>
    intro curr hn hic hfull
    have hlt : curr < init + t.num_buckets_ := by omega
    rw [AddLoop]
    simp only [hlt, if_true, TAG_PER_BUK]
    cases hf : (List.range 4).find? (fun curr_tag_idx => ReadTag t curr curr_tag_idx == 0) with
    | some j =>
      right
      rw [List.find?_range_eq_some] at hf
      obtain ⟨hz, hm, hfirst⟩ := hf
      simp only [beq_iff_eq] at hz
      simp only [List.mem_range] at hm
      refine ⟨curr, j, hic, hlt, hm, hz, hfull, ?_, rfl⟩
      intro j' hj'
      have := hfirst j' hj'
      simpa using this
    | none =>
      rw [List.find?_eq_none] at hf
      have hmod : (curr + 1) % 2 ^ 32 = curr + 1 := Nat.mod_eq_of_lt (by omega)
      simp only [hmod]
      apply ih (curr + 1) (by omega) (by omega)
      intro b hb1 hb2 j hj
      by_cases hbc : b < curr
      · exact hfull b hb1 hbc j hj
      · have hbe : b = curr := by omega
        subst hbe
        have := hf j (List.mem_range.2 hj)
        simpa using this

/-- Invariant rule for `Add`: a property `P` of (table, current bucket, current
slot) that holds when the scan stops at the first empty slot and that every
displacement move preserves, holds for the table and slot at which `Add` either writes
the new tag (result `true`) or gives up (result `false`). -/
theorem AddLoop_rule (t : WormholeFilter) (init tag : Nat)
    (hB : init + t.num_buckets_ < 2 ^ 32) (P : WormholeFilter → Nat → Nat → Prop)
    (base : ∀ c j, init ≤ c → c < init + t.num_buckets_ → j < 4 → ReadTag t c j = 0 →
      (∀ b, init ≤ b → b < c → ∀ j, j < 4 → ReadTag t b j ≠ 0) →
      (∀ j', j' < j → ReadTag t c j' ≠ 0) → P t c j)
    (step : ∀ t' curr j prob cj, P t' curr j → t'.num_buckets_ = t.num_buckets_ → j < 4 →
      init + 16 ≤ curr → curr < init + t.num_buckets_ → 1 ≤ prob → prob ≤ 15 → cj < 4 →
      (ReadTag t' (curr - prob) cj &&& 15) + prob < 16 →
      P (WriteTag t' curr j (movedTag (ReadTag t' (curr - prob) cj) prob)) (curr - prob) cj) :
    (AddLoop t init tag t.num_buckets_ init = (false, t) ∧
        ∀ b, init ≤ b → b < init + t.num_buckets_ → ∀ j, j < 4 → ReadTag t b j ≠ 0) ∨
    ∃ t' c j, P t' c j ∧ t'.num_buckets_ = t.num_buckets_ ∧ j < 4 ∧ init ≤ c ∧
      c < init + t.num_buckets_ ∧
      ((c < init + 16 ∧ AddLoop t init tag t.num_buckets_ init =
          (true, WriteTag t' c j ((tag <<< 4) ||| (c - init)))) ∨
       (init + 16 ≤ c ∧ findCadi t' c = none ∧
          AddLoop t init tag t.num_buckets_ init = (false, t'))) := by
  rcases AddLoop_scan t init tag hB t.num_buckets_ init rfl (le_refl _)
      (fun b h1 h2 => by omega) with hfull | ⟨c, j, hic, hcB, hj, hz, hfull, hfirst, heq⟩
  · exact Or.inl hfull
  · right
    have hP0 := base c j hic hcB hj hz hfull hfirst
    obtain ⟨ok, t', c', cj, he, ⟨hP, hnb, hcj, hcB'⟩, hi', _, hok, hfail⟩ :=
      displace_rule init
        (fun t' c' j' => P t' c' j' ∧ t'.num_buckets_ = t.num_buckets_ ∧ j' < 4 ∧
          c' < init + t.num_buckets_)
        (fun t' curr j' prob cj ⟨hP, hnb, hj', hcB'⟩ h16 _ h1 h15 hcj hcond =>
          ⟨step t' curr j' prob cj hP hnb hj' h16 hcB' h1 h15 hcj hcond, hnb, hcj, by omega⟩)
        c t c j ⟨hP0, rfl, hj, hcB⟩ hic (le_refl _) (by omega)
    refine ⟨t', c', cj, hP, hnb, hcj, hi', hcB', ?_⟩
    rw [heq]
    unfold AddBody
    rw [he]
    cases ok with
    | true =>
      left
      refine ⟨hok rfl, ?_⟩
      simp only [sub64_eq hi' (show c' < 2 ^ 64 by omega)]
    | false =>
      right
      exact ⟨(hfail rfl).1, (hfail rfl).2, rfl⟩

/-! ## Tags, bucket indices and the membership condition -/

theorem and_FPT_MASK (ct : Nat) (h : ct < 65536) : ct &&& FPT_MASK = 16 * (ct / 16) := by
  apply Nat.eq_of_testBit_eq
  intro i
  have hm : (FPT_MASK : Nat) = 2 ^ 4 * (2 ^ 12 - 1) := by decide
  have h16 : (16 : Nat) = 2 ^ 4 := by decide
  rw [hm, Nat.testBit_and, Nat.testBit_mul_pow_two, Nat.testBit_two_pow_sub_one, h16,
    Nat.testBit_mul_pow_two, ← Nat.shiftRight_eq_div_pow, Nat.testBit_shiftRight]
  by_cases h4 : 4 ≤ i
  · by_cases h12 : i - 4 < 12
    · have : 4 + (i - 4) = i := by omega
      simp [h4, h12, this]
    · have hi : 16 ≤ i := by omega
      have hlt : ct < 2 ^ i := lt_of_lt_of_le h (by
        have : (65536 : Nat) = 2 ^ 16 := by decide
        rw [this]
        exact Nat.pow_le_pow_right (by decide) hi)
      have := Nat.testBit_lt_two_pow hlt
      have e : 4 + (i - 4) = i := by omega
      simp [h4, h12, this, e]
  · simp [h4]

/-- A displacement move adds `prob` to the tag: the fingerprint field is kept and the
distance field grows by `prob`. -/
theorem movedTag_eq (ct prob : Nat) (h : ct < 65536) (hd : (ct &&& 15) + prob < 16) :
    movedTag ct prob = ct + prob := by
  unfold movedTag
  have h15 : ct &&& 15 = ct % 16 := Nat.and_pow_two_sub_one_eq_mod ct 4
  simp only [DIS_MASK]
  rw [and_FPT_MASK ct h, h15]
  rw [h15] at hd
  have := Nat.mul_add_lt_is_or (i := 4) hd (ct / 16)
  simp only [Nat.reducePow] at this
  rw [← this]
  omega

theorem mod_add_ne {B a k : Nat} (hk : 0 < k) (hkB : k < B) : (a + k) % B ≠ a % B := by
  intro h
  have h1 : a + k ≡ a + 0 [MOD B] := h
  have h2 : k ≡ 0 [MOD B] := Nat.ModEq.add_left_cancel' a h1
  have h3 : B ∣ k := Nat.modEq_zero_iff_dvd.1 h2
  have := Nat.le_of_dvd hk h3
  omega

theorem mod_add_congr {B a b : Nat} (k : Nat) (h : a % B = b % B) :
    (a + k) % B = (b + k) % B :=
  Nat.ModEq.add_right k h

/-- Two bucket indices less than `B` apart address different buckets. -/
theorem mod_ne_of_lt {B a b : Nat} (hab : a < b) (hb : b < a + B) : a % B ≠ b % B := by
  intro h
  have : b = a + (b - a) := by omega
  rw [this] at h
  exact mod_add_ne (by omega) (by omega) h.symm

theorem PowTwoBuckets_pos {t : WormholeFilter} (h : PowTwoBuckets t) : 0 < t.num_buckets_ := by
  obtain ⟨e, _, hB⟩ := h
  rw [hB]
  exact Nat.pos_pow_of_pos e (by decide)

theorem PowTwoBuckets_le {t : WormholeFilter} (h : PowTwoBuckets t) :
    t.num_buckets_ ≤ 2 ^ 31 := by
  obtain ⟨e, he, hB⟩ := h
  rw [hB]
  exact Nat.pow_le_pow_right (by decide) (by omega)

theorem PowTwoBuckets_of_eq {t t' : WormholeFilter} (h : PowTwoBuckets t)
    (he : t'.num_buckets_ = t.num_buckets_) : PowTwoBuckets t' := by
  obtain ⟨e, h1, hB⟩ := h
  exact ⟨e, h1, he.trans hB⟩

theorem IndexHash_lt {t : WormholeFilter} (h : PowTwoBuckets t) (hv : Nat) :
    IndexHash t hv < t.num_buckets_ := by
  have := MOD_eq_mod h (hv % 2 ^ 32)
  unfold MOD at this
  unfold IndexHash
  rw [this]
  exact Nat.mod_lt _ (PowTwoBuckets_pos h)

/-- Reading a slot after a write, with buckets identified modulo the bucket count. -/
theorem ReadTag_WriteTag_mod {t : WormholeFilter} (h : PowTwoBuckets t) (i j v i' j' : Nat)
    (hj : j < 4) (hj' : j' < 4) :
    ReadTag (WriteTag t i j v) i' j' =
      if i % t.num_buckets_ = i' % t.num_buckets_ ∧ j = j' then v % 65536
      else ReadTag t i' j' := by
  rw [ReadTag_WriteTag t i j v i' j' hj hj', MOD_eq_mod h, MOD_eq_mod h]

theorem ReadTag_congr {t : WormholeFilter} (h : PowTwoBuckets t) {i i' : Nat} (j : Nat)
    (hi : i % t.num_buckets_ = i' % t.num_buckets_) : ReadTag t i j = ReadTag t i' j := by
  unfold ReadTag
  rw [ MOD_eq_mod h, MOD_eq_mod h, hi]


theorem exists_lt_four (P : Nat → Prop) :
    (∃ j, j < 4 ∧ P j) ↔ (P 0 ∨ P 1 ∨ P 2 ∨ P 3) := by
  constructor
  · rintro ⟨j, hj, hP⟩
    have : j = 0 ∨ j = 1 ∨ j = 2 ∨ j = 3 := by omega
    rcases this with rfl | rfl | rfl | rfl
    · exact Or.inl hP
    · exact Or.inr (Or.inl hP)
    · exact Or.inr (Or.inr (Or.inl hP))
    · exact Or.inr (Or.inr (Or.inr hP))
  · rintro (h | h | h | h)
    · exact ⟨0, by omega, h⟩
    · exact ⟨1, by omega, h⟩
    · exact ⟨2, by omega, h⟩
    · exact ⟨3, by omega, h⟩

theorem needle_lt (F p : Nat) (hF : F < 4096) (hp : p < 16) : (F <<< 4) ||| p < 65536 := by
  rw [needle_eq F p hp]
  omega

/-- The SWAR probe of one bucket word agrees with comparing its four tags. -/
theorem hasvalue16_load64 (t : WormholeFilter) (i n : Nat) (hn : n < 65536) :
    hasvalue16 (load64 t (MOD i t.num_buckets_)) n ≠ 0 ↔ ∃ j, j < 4 ∧ ReadTag t i j = n := by
  rw [hasvalue16_ne_zero_iff _ n (load64_lt t _) hn, exists_lt_four]
  obtain ⟨h0, h1, h2, h3⟩ := load64_lanes t i
  rw [h0, h1, h2, h3]

/-- The method `Contain` computes the slot-by-slot membership condition. -/
theorem Contain_iff_Present (t : WormholeFilter) (item : Nat) :
    Contain t item = true ↔
      Present t (IndexHash t (hasher_ item)) (TagHash (hasher_ item >>> 32)) := by
  unfold Contain Present
  simp only [List.any_eq_true, List.mem_range, bne_iff_ne, MAX_PROB, TAG_PER_BUK]
  constructor
  · rintro ⟨p, hp, h⟩
    exact ⟨p, hp, (hasvalue16_load64 t _ _ (needle_lt _ p (TagHash_lt _) hp)).1 h⟩
  · rintro ⟨p, hp, h⟩
    exact ⟨p, hp, (hasvalue16_load64 t _ _ (needle_lt _ p (TagHash_lt _) hp)).2 h⟩

/-! ## `Add` keeps every stored fingerprint findable -/

theorem PresentExcept.present {t : WormholeFilter} {hb hj h F : Nat}
    (hp : PresentExcept t hb hj h F) : Present t h F := by
  obtain ⟨p, hp, j, hj, _, hr⟩ := hp
  exact ⟨p, hp, j, hj, hr⟩

/-- A non-zero fingerprint found in a table is found in a slot other than an empty
one. -/
theorem Present.except_of_empty {t : WormholeFilter} (hwf : PowTwoBuckets t) {c j h F : Nat}
    (hF : F ≠ 0) (hz : ReadTag t c j = 0) (hp : Present t h F) : PresentExcept t c j h F := by
  obtain ⟨p, hp, j1, hj1, hr⟩ := hp
  refine ⟨p, hp, j1, hj1, ?_, hr⟩
  rintro ⟨hm, rfl⟩
  rw [ReadTag_congr hwf j1 hm, hz, needle_eq F p hp] at hr
  omega

/-- A displacement move keeps every fingerprint findable: the moved tag is found at
its new bucket with the larger distance. -/
theorem PresentExcept.step {t : WormholeFilter} (hwf : PowTwoBuckets t)
    {curr j prob cj h F : Nat} (hj : j < 4) (hcj : cj < 4) (h1 : 1 ≤ prob)
    (hpB : prob < t.num_buckets_) (hpc : prob ≤ curr)
    (hcond : (ReadTag t (curr - prob) cj &&& 15) + prob < 16)
    (hp : PresentExcept t curr j h F) :
    PresentExcept (WriteTag t curr j (movedTag (ReadTag t (curr - prob) cj) prob))
      (curr - prob) cj h F := by
  obtain ⟨p, hp, j1, hj1, hne, hr⟩ := hp
  have hmv := movedTag_eq _ prob (ReadTag_lt t (curr - prob) cj) hcond
  by_cases hcase : (h + p) % t.num_buckets_ = (curr - prob) % t.num_buckets_ ∧ j1 = cj
  · obtain ⟨hm, rfl⟩ := hcase
    have hct : ReadTag t (curr - prob) j1 = 16 * F + p := by
      rw [← ReadTag_congr hwf j1 hm, hr, needle_eq F p hp]
    have h15 : ReadTag t (curr - prob) j1 &&& 15 = ReadTag t (curr - prob) j1 % 16 :=
      Nat.and_pow_two_sub_one_eq_mod _ 4
    have hlt := ReadTag_lt t (curr - prob) j1
    have hpp : p + prob < 16 := by
      rw [h15, hct] at hcond
      omega
    have hm2 : (h + (p + prob)) % t.num_buckets_ = curr % t.num_buckets_ := by
      have := mod_add_congr prob hm
      have e1 : h + p + prob = h + (p + prob) := by omega
      have e2 : curr - prob + prob = curr := by omega
      rw [e1, e2] at this
      exact this
    refine ⟨p + prob, hpp, j, hj, ?_, ?_⟩
    · rintro ⟨hm3, _⟩
      simp only [WriteTag_num_buckets] at hm3
      rw [hm2] at hm3
      have : (curr - prob + prob) % t.num_buckets_ ≠ (curr - prob) % t.num_buckets_ :=
        mod_add_ne (by omega) hpB
      have e2 : curr - prob + prob = curr := by omega
      rw [e2] at this
      exact this hm3
    · rw [ReadTag_WriteTag_mod hwf _ _ _ _ _ hj hj, if_pos ⟨hm2.symm, rfl⟩, hmv, hct,
        needle_eq F _ hpp]
      omega
  · refine ⟨p, hp, j1, hj1, ?_, ?_⟩
    · simpa only [WriteTag_num_buckets] using hcase
    · rw [ReadTag_WriteTag_mod hwf _ _ _ _ _ hj hj1, if_neg, hr]
      rintro ⟨hm, rfl⟩
      exact hne ⟨hm.symm, rfl⟩

/-- Writing into the excepted slot keeps every fingerprint findable. -/
theorem PresentExcept.write {t : WormholeFilter} (hwf : PowTwoBuckets t)
    {c j h F : Nat} (hj : j < 4) (v : Nat) (hp : PresentExcept t c j h F) :
    Present (WriteTag t c j v) h F := by
  obtain ⟨p, hp, j1, hj1, hne, hr⟩ := hp
  refine ⟨p, hp, j1, hj1, ?_⟩
  rw [ReadTag_WriteTag_mod hwf _ _ _ _ _ hj hj1, if_neg, hr]
  rintro ⟨hm, rfl⟩
  exact hne ⟨hm.symm, rfl⟩

theorem Add_eq_AddLoop (t : WormholeFilter) (item : Nat) :
    Add t item = AddLoop t (IndexHash t (hasher_ item)) (TagHash (hasher_ item >>> 32))
      t.num_buckets_ (IndexHash t (hasher_ item)) := rfl

theorem init_add_lt {t : WormholeFilter} (hwf : PowTwoBuckets t) (hv : Nat) :
    IndexHash t hv + t.num_buckets_ < 2 ^ 32 := by
  have := IndexHash_lt hwf hv
  have := PowTwoBuckets_le hwf
  omega

/-- The method `Add` never changes the bucket count. -/
theorem Add_num_buckets {t : WormholeFilter} (hwf : PowTwoBuckets t) (item : Nat) :
    (Add t item).2.num_buckets_ = t.num_buckets_ := by
  rw [Add_eq_AddLoop]
  rcases AddLoop_rule t _ (TagHash (hasher_ item >>> 32)) (init_add_lt hwf (hasher_ item))
      (fun _ _ _ => True) (fun _ _ _ _ _ _ _ _ => trivial)
      (fun _ _ _ _ _ _ _ _ _ _ _ _ _ _ => trivial) with
    ⟨h, _⟩ | ⟨t', c, j, _, hnb, _, _, _, ⟨_, h⟩ | ⟨_, _, h⟩⟩
  · rw [h]
  · rw [h]; exact hnb
  · rw [h]; exact hnb

theorem Add_PowTwoBuckets {t : WormholeFilter} (hwf : PowTwoBuckets t) (item : Nat) :
    PowTwoBuckets (Add t item).2 :=
  PowTwoBuckets_of_eq hwf (Add_num_buckets hwf item)

/-- The method `Add` never removes membership: a non-zero fingerprint `F` found from
home bucket `h` before the call is found after it, whatever the call returns. -/
theorem Add_preserves_Present {t : WormholeFilter} (hwf : PowTwoBuckets t) (item : Nat)
    {h F : Nat} (hF : F ≠ 0) (hp : Present t h F) : Present (Add t item).2 h F := by
  rw [Add_eq_AddLoop]
  rcases AddLoop_rule t _ (TagHash (hasher_ item >>> 32)) (init_add_lt hwf (hasher_ item))
      (fun t' c j => PresentExcept t' c j h F)
      (fun c j _ _ _ hz _ _ => hp.except_of_empty hwf hF hz)
      (fun t' curr j prob cj hP hnb hj h16 hcB h1 h15 hcj hcond =>
        PresentExcept.step (PowTwoBuckets_of_eq hwf hnb) hj hcj h1 (by omega) (by omega)
          hcond hP) with
    ⟨he, _⟩ | ⟨t', c, j, hP, hnb, hj, _, _, ⟨_, he⟩ | ⟨_, _, he⟩⟩
  · rw [he]; exact hp
  · rw [he]; exact hP.write (PowTwoBuckets_of_eq hwf hnb) hj _
  · rw [he]; exact hP.present

/-- A successful `Add` leaves the key's tag within its probe window. -/
theorem Add_true_Present {t : WormholeFilter} (hwf : PowTwoBuckets t) (item : Nat)
    (h : (Add t item).1 = true) :
    Present (Add t item).2 (IndexHash t (hasher_ item)) (TagHash (hasher_ item >>> 32)) := by
  rw [Add_eq_AddLoop] at h ⊢
  rcases AddLoop_rule t _ (TagHash (hasher_ item >>> 32)) (init_add_lt hwf (hasher_ item))
      (fun _ _ _ => True) (fun _ _ _ _ _ _ _ _ => trivial)
      (fun _ _ _ _ _ _ _ _ _ _ _ _ _ _ => trivial) with
    ⟨he, _⟩ | ⟨t', c, j, _, hnb, hj, hic, _, ⟨hc16, he⟩ | ⟨_, _, he⟩⟩
  · rw [he] at h; simp at h
  · rw [he]
    have hwf' := PowTwoBuckets_of_eq hwf hnb
    have hd : c - IndexHash t (hasher_ item) < 16 := by omega
    refine ⟨c - IndexHash t (hasher_ item), hd, j, hj, ?_⟩
    have e : IndexHash t (hasher_ item) + (c - IndexHash t (hasher_ item)) = c := by omega
    rw [e, ReadTag_WriteTag_mod hwf' _ _ _ _ _ hj hj, if_pos ⟨rfl, rfl⟩]
    exact Nat.mod_eq_of_lt (needle_lt _ _ (TagHash_lt _) hd)
  · rw [he] at h; simp at h

/-! ## The constructor -/

/-- One smearing step `a |= a >> n` doubles the window of bits of `y` that a bit of
`a` collects. -/
theorem smear_step (y a n : Nat)
    (h : ∀ i, a.testBit i = true ↔ ∃ d, d < n ∧ y.testBit (i + d) = true) :
    ∀ i, (a ||| a >>> n).testBit i = true ↔ ∃ d, d < 2 * n ∧ y.testBit (i + d) = true := by
  intro i
  rw [Nat.testBit_or, Nat.testBit_shiftRight, Bool.or_eq_true, h, h]
  constructor
  · rintro (⟨d, hd, hb⟩ | ⟨d, hd, hb⟩)
    · exact ⟨d, by omega, hb⟩
    · refine ⟨n + d, by omega, ?_⟩
      have e : i + (n + d) = n + i + d := by omega
      rw [e]; exact hb
  · rintro ⟨d, hd, hb⟩
    by_cases hdn : d < n
    · exact Or.inl ⟨d, hdn, hb⟩
    · refine Or.inr ⟨d - n, by omega, ?_⟩
      have e : n + i + (d - n) = i + d := by omega
      rw [e]; exact hb

/-- The six smearing steps of `upperpower2` set every bit at or below the highest set
bit of the 64-bit input. -/
theorem smear_all (y : Nat) (hy : y < 2 ^ 64) (i : Nat) :
    (let x := y
     let x := x ||| (x >>> 1)
     let x := x ||| (x >>> 2)
     let x := x ||| (x >>> 4)
     let x := x ||| (x >>> 8)
     let x := x ||| (x >>> 16)
     let x := x ||| (x >>> 32)
     x).testBit i = true ↔ ∃ k, i ≤ k ∧ y.testBit k = true := by
  have h0 : ∀ i, y.testBit i = true ↔ ∃ d, d < 1 ∧ y.testBit (i + d) = true := by
    intro i
    constructor
    · intro h; exact ⟨0, by omega, h⟩
    · rintro ⟨d, hd, h⟩
      have : d = 0 := by omega
      subst this; exact h
  have h1 := smear_step y _ 1 h0
  have h2 := smear_step y _ 2 h1
  have h3 := smear_step y _ 4 h2
  have h4 := smear_step y _ 8 h3
  have h5 := smear_step y _ 16 h4
  have h6 := smear_step y _ 32 h5
  simp only
  rw [h6 i]
  constructor
  · rintro ⟨d, _, h⟩
    exact ⟨i + d, by omega, h⟩
  · rintro ⟨k, hk, h⟩
    have hk64 : k < 64 := by
      by_contra hge
      have : y < 2 ^ k := lt_of_lt_of_le hy (Nat.pow_le_pow_right (by decide) (by omega))
      rw [Nat.testBit_lt_two_pow this] at h
      exact Bool.false_ne_true h
    refine ⟨k - i, by omega, ?_⟩
    have e : i + (k - i) = k := by omega
    rw [e]; exact h

/-- The method `upperpower2` returns the least power of two at or above its argument,
for every argument from 1 to `2 ^ 63`. -/
theorem upperpower2_spec (x : Nat) (h1 : 1 ≤ x) (h2 : x ≤ 2 ^ 63) :
    IsLeastPow2 (upperpower2 x) x := by
  have hs : sub64 x 1 = x - 1 := sub64_eq h1 (by omega)
  have hy : x - 1 < 2 ^ 64 := by omega
  unfold upperpower2
  rw [hs]
  by_cases hy0 : x - 1 = 0
  · have hx : x = 1 := by omega
    subst hx
    refine ⟨⟨0, by decide⟩, by decide, ?_⟩
    intro e _
    have h1e : 1 ≤ 2 ^ e := Nat.one_le_two_pow
    exact le_of_eq_of_le (by decide) h1e
  · obtain ⟨m, hm, hhigh⟩ := Nat.exists_most_significant_bit hy0
    have hge : 2 ^ m ≤ x - 1 := Nat.testBit_implies_ge hm
    have hlt : x - 1 < 2 ^ (m + 1) := Nat.lt_pow_two_of_testBit _ (fun i hi => hhigh i (by omega))
    have hm63 : m < 63 := by
      by_contra hc
      have : 2 ^ 63 ≤ 2 ^ m := Nat.pow_le_pow_right (by decide) (by omega)
      omega
    have hsm : (let x := x - 1
        let x := x ||| (x >>> 1)
        let x := x ||| (x >>> 2)
        let x := x ||| (x >>> 4)
        let x := x ||| (x >>> 8)
        let x := x ||| (x >>> 16)
        let x := x ||| (x >>> 32)
        x) = 2 ^ (m + 1) - 1 := by
      apply Nat.eq_of_testBit_eq
      intro i
      rw [Nat.testBit_two_pow_sub_one]
      by_cases hi : i < m + 1
      · rw [decide_eq_true hi]
        exact (smear_all (x - 1) hy i).2 ⟨m, by omega, hm⟩
      · rw [decide_eq_false hi]
        rw [Bool.eq_false_iff]
        intro hc
        obtain ⟨k, hk, hb⟩ := (smear_all (x - 1) hy i).1 hc
        rw [hhigh k (by omega)] at hb
        exact Bool.false_ne_true hb
    simp only at hsm ⊢
    rw [hsm]
    have hpos : 1 ≤ 2 ^ (m + 1) := Nat.one_le_two_pow
    have hle : 2 ^ (m + 1) ≤ 2 ^ 63 := Nat.pow_le_pow_right (by decide) (by omega)
    have hres : (2 ^ (m + 1) - 1 + 1) % 2 ^ 64 = 2 ^ (m + 1) := by
      rw [Nat.sub_add_cancel hpos]
      exact Nat.mod_eq_of_lt (by omega)
    rw [hres]
    refine ⟨⟨m + 1, rfl⟩, by omega, ?_⟩
    intro e he
    apply Nat.pow_le_pow_right (by decide)
    by_contra hc
    have : 2 ^ e ≤ 2 ^ m := Nat.pow_le_pow_right (by decide) (by omega)
    omega

theorem construct_num_buckets (raw : Nat → Fin 256) (cap : Nat) :
    (construct raw cap).num_buckets_ = upperpower2 (max 1 (cap / TAG_PER_BUK)) % 2 ^ 32 := rfl

/-- For a 32-bit capacity the bucket count is the least power of two at or above
`max 1 (capacity / 4)`, and it is at most `2 ^ 30`. -/
theorem construct_IsLeastPow2 (raw : Nat → Fin 256) (cap : Nat) (hcap : cap < 2 ^ 32) :
    IsLeastPow2 (construct raw cap).num_buckets_ (max 1 (cap / 4)) ∧
      (construct raw cap).num_buckets_ ≤ 2 ^ 30 := by
  have hx1 : 1 ≤ max 1 (cap / 4) := le_max_left _ _
  have hx2 : max 1 (cap / 4) ≤ 2 ^ 30 := by
    apply max_le
    · decide
    · omega
  have hspec := upperpower2_spec (max 1 (cap / 4)) hx1 (by omega)
  have hle : upperpower2 (max 1 (cap / 4)) ≤ 2 ^ 30 := hspec.2.2 30 hx2
  rw [construct_num_buckets]
  simp only [TAG_PER_BUK]
  rw [Nat.mod_eq_of_lt (by omega)]
  exact ⟨hspec, hle⟩

theorem construct_PowTwoBuckets (raw : Nat → Fin 256) (cap : Nat) (hcap : cap < 2 ^ 32) :
    PowTwoBuckets (construct raw cap) := by
  obtain ⟨⟨⟨e, he⟩, _, _⟩, hle⟩ := construct_IsLeastPow2 raw cap hcap
  refine ⟨e, ?_, he⟩
  by_contra hc
  have : 2 ^ 32 ≤ 2 ^ e := Nat.pow_le_pow_right (by decide) (by omega)
  omega

/-- When the byte count `8 * num_buckets_` fits 32 bits (capacities below
`2 ^ 30 + 4`), the `memset` of the constructor clears every tag. -/
theorem construct_ReadTag (raw : Nat → Fin 256) (cap : Nat) (hcap : cap < 2 ^ 30 + 4)
    (i j : Nat) : ReadTag (construct raw cap) i j = 0 := by
  have hx1 : 1 ≤ max 1 (cap / 4) := le_max_left _ _
  have hx2 : max 1 (cap / 4) ≤ 2 ^ 28 := by
    apply max_le
    · decide
    · omega
  have hspec := upperpower2_spec (max 1 (cap / 4)) hx1 (by omega)
  have hle : upperpower2 (max 1 (cap / 4)) ≤ 2 ^ 28 := hspec.2.2 28 hx2
  have hb : ∀ a, (construct raw cap).buckets_ a = 0 := by
    intro a
    unfold construct
    simp only [TAG_PER_BUK, kBytesPerBucket_eq]
    rw [Nat.mod_eq_of_lt (show upperpower2 (max 1 (cap / 4)) < 2 ^ 32 by omega),
      Nat.mod_eq_of_lt (show 8 * upperpower2 (max 1 (cap / 4)) < 2 ^ 32 by omega)]
    split
    · rfl
    · rfl
  unfold ReadTag
  simp only [hb]
  rfl

theorem IndexHash_congr {t t' : WormholeFilter} (h : t'.num_buckets_ = t.num_buckets_)
    (hv : Nat) : IndexHash t' hv = IndexHash t hv := by
  unfold IndexHash
  rw [h]

theorem Add_preserves_Contain {t : WormholeFilter} (hwf : PowTwoBuckets t) (item k : Nat)
    (h : Contain t k = true) : Contain (Add t item).2 k = true := by
  rw [Contain_iff_Present] at h ⊢
  rw [IndexHash_congr (Add_num_buckets hwf item)]
  exact Add_preserves_Present hwf item (by have := TagHash_pos (hasher_ k >>> 32); omega) h

theorem Add_true_Contain {t : WormholeFilter} (hwf : PowTwoBuckets t) (item : Nat)
    (h : (Add t item).1 = true) : Contain (Add t item).2 item = true := by
  rw [Contain_iff_Present, IndexHash_congr (Add_num_buckets hwf item)]
  exact Add_true_Present hwf item h

theorem runAdds_PowTwoBuckets : ∀ (keys : List Nat) {t : WormholeFilter},
    PowTwoBuckets t → PowTwoBuckets (runAdds t keys)
  | [], _, h => h
  | k :: ks, _, h => runAdds_PowTwoBuckets ks (Add_PowTwoBuckets h k)

theorem runAdds_preserves_Contain : ∀ (keys : List Nat) {t : WormholeFilter},
    PowTwoBuckets t → ∀ k, Contain t k = true → Contain (runAdds t keys) k = true
  | [], _, _, _, h => h
  | k' :: ks, _, hwf, k, h =>
    runAdds_preserves_Contain ks (Add_PowTwoBuckets hwf k') k (Add_preserves_Contain hwf k' k h)

/-- No false negatives from any table with a power-of-two bucket count. -/
theorem addedKeys_Contain : ∀ (keys : List Nat) {t : WormholeFilter},
    PowTwoBuckets t → ∀ k, k ∈ addedKeys t keys → Contain (runAdds t keys) k = true := by
  intro keys
  induction keys with
  | nil => intro t _ k hk; simp [addedKeys] at hk
  | cons k' ks ih =>
    intro t hwf k hk
    have hwf' := Add_PowTwoBuckets hwf k'
    unfold addedKeys at hk
    unfold runAdds
    by_cases hb : (Add t k').1 = true
    · rw [if_pos hb] at hk
      rcases List.mem_cons.1 hk with rfl | hk
      · exact runAdds_preserves_Contain ks hwf' k (Add_true_Contain hwf k hb)
      · exact ih hwf' k hk
    · rw [if_neg hb] at hk
      exact ih hwf' k hk

theorem ContainRef_iff_Present (t : WormholeFilter) (item : Nat) :
    ContainRef t item = true ↔
      Present t (IndexHash t (hasher_ item)) (TagHash (hasher_ item >>> 32)) := by
  unfold ContainRef Present
  simp only [List.any_eq_true, List.mem_range, beq_iff_eq, MAX_PROB, TAG_PER_BUK]

/-! ## The method `Delete` -/

/-- The first hit of `findSome?` over `0, 1, ..., n - 1`. -/
theorem findSome?_range_eq_some {β : Type} (f : Nat → Option β) :
    ∀ n (b : β), (List.range n).findSome? f = some b ↔
      ∃ i, i < n ∧ f i = some b ∧ ∀ k, k < i → f k = none := by
  intro n
  induction n with
  | zero => intro b; simp
  | succ n ih =>
    intro b
    rw [List.range_succ, List.findSome?_append]
    cases hr : (List.range n).findSome? f with
    | some b' =>
      simp only [Option.or_some]
      obtain ⟨i, hi, hfi, hlt⟩ := (ih b').1 hr
      constructor
      · intro hbb
        have hbb' : b' = b := Option.some.inj hbb
        subst hbb'
        exact ⟨i, by omega, hfi, hlt⟩
      · rintro ⟨i', hi', hfi', hlt'⟩
        rcases Nat.lt_trichotomy i i' with h | h | h
        · rw [hlt' i h] at hfi; exact absurd hfi (by simp)
        · subst h; rw [hfi] at hfi'; exact hfi'
        · rw [hlt i' h] at hfi'; exact absurd hfi' (by simp)
    | none =>
      rw [List.findSome?_eq_none_iff] at hr
      simp only [Option.none_or, List.findSome?_cons, List.findSome?_nil]
      constructor
      · intro h
        refine ⟨n, by omega, ?_, fun k hk => hr k (List.mem_range.2 hk)⟩
        cases hfn : f n with
        | none => rw [hfn] at h; simp at h
        | some c => rw [hfn] at h; simpa using h
      · rintro ⟨i, hi, hfi, _⟩
        have hin : i = n := by
          by_contra hne
          have := hr i (List.mem_range.2 (by omega))
          rw [this] at hfi
          simp at hfi
        subst hin
        rw [hfi]

/-- The slot `findMatch` selects: the first one, in scan order, holding the tag
`(tag << 4) | prob`. -/
theorem findMatch_some {t : WormholeFilter} {init tag p j : Nat} :
    findMatch t init tag = some (p, j) ↔
      p < 16 ∧ j < 4 ∧ ReadTag t ((init + p) % 2 ^ 32) j = ((tag <<< 4) ||| p) ∧
      (∀ j', j' < j → ReadTag t ((init + p) % 2 ^ 32) j' ≠ ((tag <<< 4) ||| p)) ∧
      (∀ p', p' < p → ∀ j', j' < 4 →
        ReadTag t ((init + p') % 2 ^ 32) j' ≠ ((tag <<< 4) ||| p')) := by
  unfold findMatch
  simp only [MAX_PROB, TAG_PER_BUK]
  rw [findSome?_range_eq_some]
  constructor
  · rintro ⟨i, hi, hfi, hnone⟩
    obtain ⟨c, hc, hpc⟩ := Option.map_eq_some'.1 hfi
    simp only [Prod.mk.injEq] at hpc
    obtain ⟨rfl, rfl⟩ := hpc
    rw [List.find?_range_eq_some] at hc
    obtain ⟨hm, hmem, hfirst⟩ := hc
    refine ⟨hi, List.mem_range.1 hmem, by simpa using hm, ?_, ?_⟩
    · intro j' hj'
      simpa using hfirst j' hj'
    · intro p' hp' j' hj'
      have := hnone p' hp'
      simp only [Option.map_eq_none', List.find?_eq_none, List.mem_range] at this
      simpa using this j' hj'
  · rintro ⟨hp, hj, hm, hfirst, hnone⟩
    refine ⟨p, hp, ?_, ?_⟩
    · apply Option.map_eq_some'.2
      refine ⟨j, ?_, rfl⟩
      rw [List.find?_range_eq_some]
      refine ⟨by simpa using hm, List.mem_range.2 hj, ?_⟩
      intro j' hj'
      simpa using hfirst j' hj'
    · intro p' hp'
      simp only [Option.map_eq_none', List.find?_eq_none, List.mem_range]
      intro j' hj'
      simpa using hnone p' hp' j' hj'

theorem findMatch_none {t : WormholeFilter} {init tag : Nat} :
    findMatch t init tag = none ↔
      ∀ p, p < 16 → ∀ j, j < 4 →
        ReadTag t ((init + p) % 2 ^ 32) j ≠ ((tag <<< 4) ||| p) := by
  unfold findMatch
  simp only [MAX_PROB, TAG_PER_BUK, List.findSome?_eq_none_iff, Option.map_eq_none',
    List.find?_eq_none, List.mem_range, beq_iff_eq]

theorem init_add_mod {t : WormholeFilter} (hwf : PowTwoBuckets t) (hv p : Nat) (hp : p < 16) :
    (IndexHash t hv + p) % 2 ^ 32 = IndexHash t hv + p := by
  have := IndexHash_lt hwf hv
  have := PowTwoBuckets_le hwf
  exact Nat.mod_eq_of_lt (by omega)

theorem ReadTag_mod32 (t : WormholeFilter) (i j : Nat) :
    ReadTag t (i % 2 ^ 32) j = ReadTag t i j := by
  unfold ReadTag
  rw [ MOD_mod32]

theorem WriteTag_mod32 (t : WormholeFilter) (i j v : Nat) :
    WriteTag t (i % 2 ^ 32) j v = WriteTag t i j v := by
  unfold WriteTag
  rw [ MOD_mod32]

/-- The two outcomes of `Delete`: no slot of the probe window matches and the table
is returned as it is, or the first matching slot is cleared. -/
theorem Delete_cases (t : WormholeFilter) (item : Nat) :
    ((∀ p, p < 16 → ∀ j, j < 4 →
        ReadTag t (IndexHash t (hasher_ item) + p) j
          ≠ ((TagHash (hasher_ item >>> 32) <<< 4) ||| p)) ∧
      Delete t item = (false, t)) ∨
    ∃ p j, p < 16 ∧ j < 4 ∧
      ReadTag t (IndexHash t (hasher_ item) + p) j
        = ((TagHash (hasher_ item >>> 32) <<< 4) ||| p) ∧
      (∀ j', j' < j → ReadTag t (IndexHash t (hasher_ item) + p) j'
        ≠ ((TagHash (hasher_ item >>> 32) <<< 4) ||| p)) ∧
      (∀ p', p' < p → ∀ j', j' < 4 → ReadTag t (IndexHash t (hasher_ item) + p') j'
        ≠ ((TagHash (hasher_ item >>> 32) <<< 4) ||| p')) ∧
      Delete t item = (true, WriteTag t (IndexHash t (hasher_ item) + p) j 0) := by
  unfold Delete
  simp only
  cases hf : findMatch t (IndexHash t (hasher_ item)) (TagHash (hasher_ item >>> 32)) with
  | none =>
    left
    rw [findMatch_none] at hf
    refine ⟨?_, rfl⟩
    intro p hp j hj
    have := hf p hp j hj
    rwa [ReadTag_mod32] at this
  | some pj =>
    obtain ⟨p, j⟩ := pj
    right
    rw [findMatch_some] at hf
    obtain ⟨hp, hj, hm, hfirst, hnone⟩ := hf
    rw [ReadTag_mod32] at hm
    refine ⟨p, j, hp, hj, hm, ?_, ?_, ?_⟩
    · intro j' hj'
      have := hfirst j' hj'
      rwa [ReadTag_mod32] at this
    · intro p' hp' j' hj'
      have := hnone p' hp' j' hj'
      rwa [ReadTag_mod32] at this
    · simp only [WriteTag_mod32]

theorem needle_ne_zero (item p : Nat) (hp : p < 16) :
    ((TagHash (hasher_ item >>> 32) <<< 4) ||| p) ≠ 0 := by
  rw [needle_eq _ p hp]
  have := TagHash_pos (hasher_ item >>> 32)
  omega

/-! ## Counting occupied slots -/

/-- Two families that agree everywhere below `n` except at `k` have sums that differ
by the difference at `k`. -/
theorem sum_range_eq_of_eq_except (f g : Nat → Nat) (k : Nat) :
    ∀ n, k < n → (∀ b, b < n → b ≠ k → f b = g b) →
      ((List.range n).map f).sum + g k = ((List.range n).map g).sum + f k := by
  intro n
  induction n with
  | zero => intro h; omega
  | succ n ih =>
    intro hk hfg
    rw [List.range_succ, List.map_append, List.map_append, List.sum_append, List.sum_append]
    simp only [List.map_cons, List.map_nil, List.sum_cons, List.sum_nil, Nat.add_zero]
    by_cases hkn : k = n
    · subst hkn
      have : (List.range k).map f = (List.range k).map g := by
        apply List.map_congr_left
        intro b hb
        have hb' := List.mem_range.1 hb
        exact hfg b (by omega) (by omega)
      rw [this]
      omega
    · have h1 := ih (by omega) (fun b hb hne => hfg b (by omega) hne)
      have h2 := hfg n (by omega) (fun h => hkn h.symm)
      omega

theorem slotOcc_WriteTag {t : WormholeFilter} (hwf : PowTwoBuckets t) (i j v i' j' : Nat)
    (hj : j < 4) (hj' : j' < 4) :
    slotOcc (WriteTag t i j v) i' j' =
      if i % t.num_buckets_ = i' % t.num_buckets_ ∧ j = j' then
        (if v % 65536 = 0 then 0 else 1)
      else slotOcc t i' j' := by
  unfold slotOcc
  rw [ReadTag_WriteTag_mod hwf i j v i' j' hj hj']
  split <;> rfl

/-- Effect of one `WriteTag` on the number of occupied slots. -/
theorem occupied_WriteTag {t : WormholeFilter} (hwf : PowTwoBuckets t) (i j v : Nat)
    (hj : j < 4) :
    occupied (WriteTag t i j v) + slotOcc t i j =
      occupied t + (if v % 65536 = 0 then 0 else 1) := by
  have hpos := PowTwoBuckets_pos hwf
  have hk : i % t.num_buckets_ < t.num_buckets_ := Nat.mod_lt _ hpos
  unfold occupied
  simp only [WriteTag_num_buckets]
  have hother : ∀ b, b < t.num_buckets_ → b ≠ i % t.num_buckets_ →
      bucketOcc (WriteTag t i j v) b = bucketOcc t b := by
    intro b hb hne
    have hbm : b % t.num_buckets_ = b := Nat.mod_eq_of_lt hb
    unfold bucketOcc
    have hs : ∀ j', j' < 4 → slotOcc (WriteTag t i j v) b j' = slotOcc t b j' := by
      intro j' hj'
      rw [slotOcc_WriteTag hwf i j v b j' hj hj', if_neg]
      rintro ⟨h1, _⟩
      rw [hbm] at h1
      exact hne h1.symm
    rw [hs 0 (by omega), hs 1 (by omega), hs 2 (by omega), hs 3 (by omega)]
  have hsum := sum_range_eq_of_eq_except (bucketOcc (WriteTag t i j v)) (bucketOcc t)
    (i % t.num_buckets_) t.num_buckets_ hk hother
  have hkk : i % t.num_buckets_ % t.num_buckets_ = i % t.num_buckets_ := Nat.mod_mod _ _
  have hat : bucketOcc (WriteTag t i j v) (i % t.num_buckets_) + slotOcc t i j =
      bucketOcc t (i % t.num_buckets_) + (if v % 65536 = 0 then 0 else 1) := by
    have hsame : slotOcc t i j = slotOcc t (i % t.num_buckets_) j := by
      unfold slotOcc
      rw [ReadTag_congr hwf j hkk.symm]
    rw [hsame]
    unfold bucketOcc
    have hs : ∀ j', j' < 4 → slotOcc (WriteTag t i j v) (i % t.num_buckets_) j' =
        if j = j' then (if v % 65536 = 0 then 0 else 1)
        else slotOcc t (i % t.num_buckets_) j' := by
      intro j' hj'
      rw [slotOcc_WriteTag hwf i j v _ j' hj hj']
      simp only [hkk, true_and]
    rw [hs 0 (by omega), hs 1 (by omega), hs 2 (by omega), hs 3 (by omega)]
    have hj4 : j = 0 ∨ j = 1 ∨ j = 2 ∨ j = 3 := by omega
    rcases hj4 with rfl | rfl | rfl | rfl <;> simp <;> omega
  omega

theorem slotOcc_eq_one {t : WormholeFilter} {i j : Nat} (h : ReadTag t i j ≠ 0) :
    slotOcc t i j = 1 := by
  unfold slotOcc
  rw [if_neg h]

theorem slotOcc_eq_zero {t : WormholeFilter} {i j : Nat} (h : ReadTag t i j = 0) :
    slotOcc t i j = 0 := by
  unfold slotOcc
  rw [if_pos h]

/-- The tag a displacement move writes is a non-zero 16-bit value. -/
theorem movedTag_mod_ne_zero (ct prob : Nat) (h : ct < 65536) (h1 : 1 ≤ prob)
    (hd : (ct &&& 15) + prob < 16) : movedTag ct prob % 65536 ≠ 0 := by
  rw [movedTag_eq ct prob h hd]
  have h15 : ct &&& 15 = ct % 16 := Nat.and_pow_two_sub_one_eq_mod ct 4
  rw [h15] at hd
  omega

/-- The counting invariant of the displacement loop: every bucket from the home bucket
up to the current one is full, and the table holds one more occupied slot than at
the start unless the current slot is (still) empty. -/
theorem occupied_step {t0 t : WormholeFilter} (hwf : PowTwoBuckets t) {init curr j prob cj : Nat}
    (hj : j < 4) (hcj : cj < 4) (h16 : init + 16 ≤ curr) (hcB : curr < init + t.num_buckets_)
    (h1 : 1 ≤ prob) (h15 : prob ≤ 15)
    (hcond : (ReadTag t (curr - prob) cj &&& 15) + prob < 16)
    (hP : (∀ b, init ≤ b → b < curr → ∀ j', j' < 4 → ReadTag t b j' ≠ 0) ∧
      occupied t = occupied t0 + slotOcc t curr j) :
    (∀ b, init ≤ b → b < curr - prob → ∀ j', j' < 4 →
        ReadTag (WriteTag t curr j (movedTag (ReadTag t (curr - prob) cj) prob)) b j' ≠ 0) ∧
      occupied (WriteTag t curr j (movedTag (ReadTag t (curr - prob) cj) prob)) =
        occupied t0 +
          slotOcc (WriteTag t curr j (movedTag (ReadTag t (curr - prob) cj) prob))
            (curr - prob) cj := by
  obtain ⟨hfull, hocc⟩ := hP
  have hkeep : ∀ b, init ≤ b → b < curr → ∀ j', j' < 4 →
      ReadTag (WriteTag t curr j (movedTag (ReadTag t (curr - prob) cj) prob)) b j' =
        ReadTag t b j' := by
    intro b hb1 hb2 j' hj'
    rw [ReadTag_WriteTag_mod hwf _ _ _ _ _ hj hj', if_neg]
    rintro ⟨hm, _⟩
    exact mod_ne_of_lt hb2 (by omega) hm.symm
  refine ⟨?_, ?_⟩
  · intro b hb1 hb2 j' hj'
    rw [hkeep b hb1 (by omega) j' hj']
    exact hfull b hb1 (by omega) j' hj'
  · have hw := occupied_WriteTag hwf curr j (movedTag (ReadTag t (curr - prob) cj) prob) hj
    rw [if_neg (movedTag_mod_ne_zero _ prob (ReadTag_lt t _ _) h1 hcond)] at hw
    have hnew : slotOcc (WriteTag t curr j (movedTag (ReadTag t (curr - prob) cj) prob))
        (curr - prob) cj = 1 := by
      apply slotOcc_eq_one
      rw [hkeep (curr - prob) (by omega) (by omega) cj hcj]
      exact hfull (curr - prob) (by omega) (by omega) cj hcj
    rw [hnew]
    omega

/-- A successful `Add` raises the number of occupied slots by exactly one. -/
theorem Add_true_occupied {t : WormholeFilter} (hwf : PowTwoBuckets t) (item : Nat)
    (h : (Add t item).1 = true) : occupied (Add t item).2 = occupied t + 1 := by
  rw [Add_eq_AddLoop] at h ⊢
  rcases AddLoop_rule t _ (TagHash (hasher_ item >>> 32)) (init_add_lt hwf (hasher_ item))
      (fun t' c j => (∀ b, IndexHash t (hasher_ item) ≤ b → b < c → ∀ j', j' < 4 →
          ReadTag t' b j' ≠ 0) ∧ occupied t' = occupied t + slotOcc t' c j)
      (fun c j _ _ _ hz hfull _ => ⟨hfull, by rw [slotOcc_eq_zero hz]; rfl⟩)
      (fun t' curr j prob cj hP hnb hj h16 hcB h1 h15 hcj hcond =>
        occupied_step (PowTwoBuckets_of_eq hwf hnb) hj hcj h16 (by rw [hnb]; exact hcB)
          h1 h15 hcond hP) with
    ⟨he, _⟩ | ⟨t', c, j, ⟨_, hocc⟩, hnb, hj, hic, _, ⟨hc16, he⟩ | ⟨_, _, he⟩⟩
  · rw [he] at h; simp at h
  · rw [he]
    have hwf' := PowTwoBuckets_of_eq hwf hnb
    have hd : c - IndexHash t (hasher_ item) < 16 := by omega
    have hw := occupied_WriteTag hwf' c j
      ((TagHash (hasher_ item >>> 32) <<< 4) ||| (c - IndexHash t (hasher_ item))) hj
    have hne : ((TagHash (hasher_ item >>> 32) <<< 4) ||| (c - IndexHash t (hasher_ item)))
        % 65536 ≠ 0 := by
      rw [Nat.mod_eq_of_lt (needle_lt _ _ (TagHash_lt _) hd)]
      exact needle_ne_zero item _ hd
    rw [if_neg hne] at hw
    simp only
    omega
  · rw [he] at h; simp at h

/-- On a filter whose constructor zeroed the table (capacities below `2 ^ 30 + 4`),
`Contain` is `false` for every key. -/
theorem construct_Contain_false (raw : Nat → Fin 256) (cap : Nat) (hcap : cap < 2 ^ 30 + 4)
    (item : Nat) : Contain (construct raw cap) item = false := by
  rw [Bool.eq_false_iff]
  intro h
  rw [Contain_iff_Present] at h
  obtain ⟨p, hp, j, _, hr⟩ := h
  rw [construct_ReadTag raw cap hcap] at hr
  exact needle_ne_zero item p hp hr.symm

theorem addedKeys_length_le : ∀ (keys : List Nat) (t : WormholeFilter),
    (addedKeys t keys).length ≤ keys.length := by
  intro keys
  induction keys with
  | nil => intro t; simp [addedKeys]
  | cons k ks ih =>
    intro t
    unfold addedKeys
    have := ih (Add t k).2
    split
    · simp only [List.length_cons]; omega
    · simp only [List.length_cons]; omega

/-- When every `Add` of a sequence returns `true`, the number of occupied slots
grows by the length of the sequence. -/
theorem runAdds_occupied_of_all_true : ∀ (keys : List Nat) {t : WormholeFilter},
    PowTwoBuckets t → (addedKeys t keys).length = keys.length →
      occupied (runAdds t keys) = occupied t + keys.length := by
  intro keys
  induction keys with
  | nil => intro t _ _; rfl
  | cons k ks ih =>
    intro t hwf hall
    unfold addedKeys at hall
    unfold runAdds
    have hle := addedKeys_length_le ks (Add t k).2
    by_cases hb : (Add t k).1 = true
    · rw [if_pos hb] at hall
      simp only [List.length_cons] at hall ⊢
      rw [ih (Add_PowTwoBuckets hwf k) (by omega), Add_true_occupied hwf k hb]
      omega
    · rw [if_neg hb] at hall
      simp only [List.length_cons] at hall
      omega

/-! ## The hash adapter -/

theorem TagHash_eq (hv : Nat) :
    TagHash hv = if (hv % 2 ^ 32) &&& 0xFFF = 0 then 1 else (hv % 2 ^ 32) &&& 0xFFF := by
  unfold TagHash
  have h : ((1 <<< BIT_PER_FPT) - 1 : Nat) = 0xFFF := by decide
  have hlt : (hv % 2 ^ 32) &&& 0xFFF < 4096 := Nat.and_lt_two_pow _ (n := 12) (by decide)
  simp only [h]
  rw [Nat.mod_eq_of_lt (show (hv % 2 ^ 32) &&& 0xFFF < 2 ^ 32 by omega)]
  split
  · rename_i h0
    rw [h0]
    rfl
  · rw [Nat.add_zero]
    exact Nat.mod_eq_of_lt (by omega)

/-! ## `Add` without displacement -/

/-- When the current bucket is within the probe window, the displacement loop exits
at once. -/
theorem displace_near (init fuel : Nat) (t : WormholeFilter) (curr j : Nat)
    (hic : init ≤ curr) (hc : curr < init + 16) (h64 : curr < 2 ^ 64) :
    displace init fuel t curr j = (true, t, curr, j) := by
  rw [displace.eq_def]
  have hs : sub64 curr init = curr - init := sub64_eq hic h64
  have : ¬ (MAX_PROB ≤ sub64 curr init) := by
    rw [hs]
    simp only [MAX_PROB]
    omega
  simp only [this, if_false]

theorem AddBody_near (t : WormholeFilter) (init tag curr j : Nat)
    (hic : init ≤ curr) (hc : curr < init + 16) (h64 : curr < 2 ^ 64) :
    AddBody t init tag curr j = (true, WriteTag t curr j ((tag <<< 4) ||| (curr - init))) := by
  unfold AddBody
  rw [displace_near init curr t curr j hic hc h64]
  simp only [sub64_eq hic h64]

/-- `Add` when the first empty slot in scan order lies within the probe window: the
call writes the new tag there and returns `true`. -/
theorem Add_near {t : WormholeFilter} (hwf : PowTwoBuckets t) (item d j : Nat)
    (hd : d < 16) (hj : j < 4)
    (hempty : ReadTag t (IndexHash t (hasher_ item) + d) j = 0)
    (hbefore : ∀ d', d' < d → ∀ j', j' < 4 →
      ReadTag t (IndexHash t (hasher_ item) + d') j' ≠ 0)
    (hslots : ∀ j', j' < j → ReadTag t (IndexHash t (hasher_ item) + d) j' ≠ 0) :
    Add t item = (true, WriteTag t (IndexHash t (hasher_ item) + d) j
      ((TagHash (hasher_ item >>> 32) <<< 4) ||| d)) := by
  have hB := init_add_lt hwf (hasher_ item)
  have hdB : d < t.num_buckets_ := by
    by_contra hge
    have hm : (IndexHash t (hasher_ item) + (d - t.num_buckets_)) % t.num_buckets_
        = (IndexHash t (hasher_ item) + d) % t.num_buckets_ := by
      have e : IndexHash t (hasher_ item) + d
          = IndexHash t (hasher_ item) + (d - t.num_buckets_) + t.num_buckets_ := by omega
      rw [e, Nat.add_mod_right]
    have := hbefore (d - t.num_buckets_) (by have := PowTwoBuckets_pos hwf; omega) j hj
    rw [ReadTag_congr hwf j hm, hempty] at this
    exact this rfl
  rw [Add_eq_AddLoop]
  rcases AddLoop_scan t (IndexHash t (hasher_ item)) (TagHash (hasher_ item >>> 32)) hB
      t.num_buckets_ (IndexHash t (hasher_ item)) rfl (le_refl _)
      (fun b h1 h2 => by omega) with ⟨_, hfull⟩ | ⟨c, j0, hic, hcB, hj0, hz, hfull, hfirst, heq⟩
  · exact absurd hempty (hfull _ (by omega) (by omega) j hj)
  · have hc : c = IndexHash t (hasher_ item) + d := by
      rcases Nat.lt_trichotomy c (IndexHash t (hasher_ item) + d) with h | h | h
      · have := hbefore (c - IndexHash t (hasher_ item)) (by omega) j0 hj0
        rw [show IndexHash t (hasher_ item) + (c - IndexHash t (hasher_ item)) = c by omega]
          at this
        exact absurd hz this
      · exact h
      · exact absurd hempty (hfull _ (by omega) h j hj)
    subst hc
    have hjj : j0 = j := by
      rcases Nat.lt_trichotomy j0 j with h | h | h
      · exact absurd hz (hslots j0 h)
      · exact h
      · exact absurd hempty (hfirst j h)
    subst hjj
    rw [heq, AddBody_near t _ _ _ _ hic (by omega) (by omega)]
    simp only [Nat.add_sub_cancel_left]

/-! ## Sums over the slots of the table -/

/-- Effect of one `WriteTag` on a sum of slot weights. -/
theorem tagSum_WriteTag {t : WormholeFilter} (hwf : PowTwoBuckets t) (g : Nat → Nat → Nat)
    (i j v : Nat) (hj : j < 4) :
    tagSum g (WriteTag t i j v) + g (i % t.num_buckets_) (ReadTag t i j) =
      tagSum g t + g (i % t.num_buckets_) (v % 65536) := by
  have hpos := PowTwoBuckets_pos hwf
  have hk : i % t.num_buckets_ < t.num_buckets_ := Nat.mod_lt _ hpos
  have hkk : i % t.num_buckets_ % t.num_buckets_ = i % t.num_buckets_ := Nat.mod_mod _ _
  unfold tagSum
  simp only [WriteTag_num_buckets]
  have hother : ∀ b, b < t.num_buckets_ → b ≠ i % t.num_buckets_ → ∀ j', j' < 4 →
      ReadTag (WriteTag t i j v) b j' = ReadTag t b j' := by
    intro b hb hne j' hj'
    rw [ReadTag_WriteTag_mod hwf i j v b j' hj hj', if_neg]
    rintro ⟨h1, _⟩
    rw [Nat.mod_eq_of_lt hb] at h1
    exact hne h1.symm
  have hsum := sum_range_eq_of_eq_except
    (fun b => g b (ReadTag (WriteTag t i j v) b 0) + g b (ReadTag (WriteTag t i j v) b 1)
      + g b (ReadTag (WriteTag t i j v) b 2) + g b (ReadTag (WriteTag t i j v) b 3))
    (fun b => g b (ReadTag t b 0) + g b (ReadTag t b 1) + g b (ReadTag t b 2)
      + g b (ReadTag t b 3))
    (i % t.num_buckets_) t.num_buckets_ hk
    (fun b hb hne => by
      simp only [hother b hb hne 0 (by omega), hother b hb hne 1 (by omega),
        hother b hb hne 2 (by omega), hother b hb hne 3 (by omega)])
  have hsame : ReadTag t i j = ReadTag t (i % t.num_buckets_) j :=
    ReadTag_congr hwf j hkk.symm
  have hs : ∀ j', j' < 4 → ReadTag (WriteTag t i j v) (i % t.num_buckets_) j' =
      if j = j' then v % 65536 else ReadTag t (i % t.num_buckets_) j' := by
    intro j' hj'
    rw [ReadTag_WriteTag_mod hwf i j v _ j' hj hj']
    simp only [hkk, true_and]
  simp only at hsum
  rw [hs 0 (by omega), hs 1 (by omega), hs 2 (by omega), hs 3 (by omega)] at hsum
  rw [hsame]
  have hj4 : j = 0 ∨ j = 1 ∨ j = 2 ∨ j = 3 := by omega
  rcases hj4 with rfl | rfl | rfl | rfl <;>
    simp only [Nat.reduceEqDiff, if_true, if_false, OfNat.ofNat_ne_zero, OfNat.zero_ne_ofNat,
      OfNat.ofNat_ne_one, OfNat.one_ne_ofNat, zero_ne_one, one_ne_zero] at hsum <;> omega

/-- A slot's weight is part of the sum over all slots. -/
theorem le_tagSum (g : Nat → Nat → Nat) (t : WormholeFilter) (b j : Nat)
    (hb : b < t.num_buckets_) (hj : j < 4) : g b (ReadTag t b j) ≤ tagSum g t := by
  unfold tagSum
  have hmem : (g b (ReadTag t b 0) + g b (ReadTag t b 1) + g b (ReadTag t b 2)
      + g b (ReadTag t b 3)) ∈ (List.range t.num_buckets_).map fun b =>
        g b (ReadTag t b 0) + g b (ReadTag t b 1) + g b (ReadTag t b 2) + g b (ReadTag t b 3) :=
    List.mem_map.2 ⟨b, List.mem_range.2 hb, rfl⟩
  have hle := List.single_le_sum (fun x _ => Nat.zero_le x) _ hmem
  have hj4 : j = 0 ∨ j = 1 ∨ j = 2 ∨ j = 3 := by omega
  rcases hj4 with rfl | rfl | rfl | rfl <;> omega

/-- A sum of slot weights is zero when every slot weighs zero. -/
theorem tagSum_eq_zero (g : Nat → Nat → Nat) (t : WormholeFilter)
    (h : ∀ b, b < t.num_buckets_ → ∀ j, j < 4 → g b (ReadTag t b j) = 0) : tagSum g t = 0 := by
  unfold tagSum
  apply List.sum_eq_zero
  intro x hx
  obtain ⟨b, hb, rfl⟩ := List.mem_map.1 hx
  have hb' := List.mem_range.1 hb
  rw [h b hb' 0 (by omega), h b hb' 1 (by omega), h b hb' 2 (by omega), h b hb' 3 (by omega)]
  rfl

theorem count_flatMap_range {α : Type} [DecidableEq α] (a : α) (f : Nat → List α) :
    ∀ n, List.count a ((List.range n).flatMap f)
      = ((List.range n).map fun b => List.count a (f b)).sum := by
  intro n
  induction n with
  | zero => simp
  | succ n ih =>
    rw [List.range_succ, List.flatMap_append, List.count_append, ih, List.map_append,
      List.sum_append]
    simp

theorem count_toList {α : Type} [DecidableEq α] (a : α) (o : Option α) :
    List.count a o.toList = if o = some a then 1 else 0 := by
  cases o with
  | none => simp
  | some x =>
    simp only [Option.toList_some, List.count_singleton, Option.some.injEq]
    by_cases h : x = a
    · simp [h]
    · have h' : ¬ (a = x) := fun e => h e.symm
      simp [h, h']

/-- The multiplicity of a pair in the decoded multiset is the number of slots whose
tag decodes to it. -/
theorem count_decoded (t : WormholeFilter) (a : Int × Nat) :
    Multiset.count a (decoded t) = tagSum (pairWeight t.num_buckets_ a) t := by
  unfold decoded tagSum
  rw [Multiset.coe_count, count_flatMap_range]
  congr 1
  apply List.map_congr_left
  intro b _
  unfold decodedBucket pairWeight
  simp only [List.count_append, count_toList]

/-! ## The decoded pairs under `Add` -/

theorem decodeTag_zero (B b : Nat) : decodeTag B b 0 = none := by
  unfold decodeTag
  rw [if_pos rfl]

theorem pairWeight_zero (B : Nat) (a : Int × Nat) (b : Nat) : pairWeight B a b 0 = 0 := by
  unfold pairWeight
  rw [decodeTag_zero, if_neg (by simp)]

/-- Decoding depends on the bucket index only modulo the bucket count. -/
theorem decodeTag_mod (B b tag : Nat) : decodeTag B (b % B) tag = decodeTag B b tag := by
  unfold decodeTag
  split
  · rfl
  · congr 2
    rw [Int.sub_emod, Int.natCast_mod, Int.emod_emod, ← Int.sub_emod]

theorem pairWeight_mod (B : Nat) (a : Int × Nat) (b tag : Nat) :
    pairWeight B a (b % B) tag = pairWeight B a b tag := by
  unfold pairWeight
  rw [decodeTag_mod]

/-- A displacement move keeps the decoded pair: the tag `ct` at bucket `curr - prob`
and the tag `ct + prob` at bucket `curr` have the same home and fingerprint. -/
theorem decodeTag_moved (B curr prob ct : Nat) (hpc : prob ≤ curr) (hne : ct ≠ 0)
    (hcond : (ct &&& 15) + prob < 16) :
    decodeTag B curr (ct + prob) = decodeTag B (curr - prob) ct := by
  have h15 : ct &&& 15 = ct % 16 := Nat.and_pow_two_sub_one_eq_mod ct 4
  have h15' : (ct + prob) &&& 15 = (ct + prob) % 16 := Nat.and_pow_two_sub_one_eq_mod _ 4
  rw [h15] at hcond
  unfold decodeTag
  rw [if_neg (show ct + prob ≠ 0 by omega), if_neg hne]
  simp only [DIS_MASK, h15, h15', Nat.shiftRight_eq_div_pow]
  have e1 : (ct + prob) % 16 = ct % 16 + prob := by omega
  have e2 : (ct + prob) / 2 ^ 4 = ct / 2 ^ 4 := by omega
  rw [e1, e2]
  congr 2
  congr 1
  push_cast [Nat.cast_sub hpc]
  ring

/-- The tag `(F << 4) | d` written at bucket `init + d` decodes to `(init, F)`. -/
theorem decodeTag_needle (B init c F : Nat) (hF : 1 ≤ F) (hic : init ≤ c) (hc : c < init + 16)
    (hB : init < B) :
    decodeTag B c ((F <<< 4) ||| (c - init)) = some ((init : Int), F) := by
  have hd : c - init < 16 := by omega
  rw [needle_eq F _ hd]
  have h15 : (16 * F + (c - init)) &&& 15 = (16 * F + (c - init)) % 16 :=
    Nat.and_pow_two_sub_one_eq_mod _ 4
  unfold decodeTag
  rw [if_neg (show 16 * F + (c - init) ≠ 0 by omega)]
  simp only [DIS_MASK, h15, Nat.shiftRight_eq_div_pow]
  have e1 : (16 * F + (c - init)) % 16 = c - init := by omega
  have e2 : (16 * F + (c - init)) / 2 ^ 4 = F := by omega
  rw [e1, e2]
  congr 2
  have e3 : ((c : Int) - ((c - init : Nat) : Int)) = (init : Int) := by
    push_cast [Nat.cast_sub hic]
    ring
  rw [e3]
  exact Int.emod_eq_of_lt (Int.natCast_nonneg _) (by exact_mod_cast hB)

/-- The decoding invariant of the displacement loop: every bucket from the home
bucket up to the current one is full, and the slots other than the current one hold
the pairs the table held at the start. -/
theorem decoded_step (t0 : WormholeFilter) {t : WormholeFilter} (hwf : PowTwoBuckets t)
    {init curr j prob cj : Nat}
    (hj : j < 4) (hcj : cj < 4) (h16 : init + 16 ≤ curr) (hcB : curr < init + t.num_buckets_)
    (h1 : 1 ≤ prob) (h15 : prob ≤ 15)
    (hcond : (ReadTag t (curr - prob) cj &&& 15) + prob < 16)
    (hP : (∀ b, init ≤ b → b < curr → ∀ j', j' < 4 → ReadTag t b j' ≠ 0) ∧
      ∀ a, tagSum (pairWeight t.num_buckets_ a) t =
        tagSum (pairWeight t.num_buckets_ a) t0
          + pairWeight t.num_buckets_ a curr (ReadTag t curr j)) :
    (∀ b, init ≤ b → b < curr - prob → ∀ j', j' < 4 →
        ReadTag (WriteTag t curr j (movedTag (ReadTag t (curr - prob) cj) prob)) b j' ≠ 0) ∧
      ∀ a, tagSum (pairWeight t.num_buckets_ a)
          (WriteTag t curr j (movedTag (ReadTag t (curr - prob) cj) prob)) =
        tagSum (pairWeight t.num_buckets_ a) t0 +
          pairWeight t.num_buckets_ a (curr - prob)
            (ReadTag (WriteTag t curr j (movedTag (ReadTag t (curr - prob) cj) prob))
              (curr - prob) cj) := by
  obtain ⟨hfull, hsum⟩ := hP
  have hkeep : ∀ b, init ≤ b → b < curr → ∀ j', j' < 4 →
      ReadTag (WriteTag t curr j (movedTag (ReadTag t (curr - prob) cj) prob)) b j' =
        ReadTag t b j' := by
    intro b hb1 hb2 j' hj'
    rw [ReadTag_WriteTag_mod hwf _ _ _ _ _ hj hj', if_neg]
    rintro ⟨hm, _⟩
    exact mod_ne_of_lt hb2 (by omega) hm.symm
  refine ⟨?_, ?_⟩
  · intro b hb1 hb2 j' hj'
    rw [hkeep b hb1 (by omega) j' hj']
    exact hfull b hb1 (by omega) j' hj'
  · intro a
    have hw := tagSum_WriteTag hwf (pairWeight t.num_buckets_ a) curr j
      (movedTag (ReadTag t (curr - prob) cj) prob) hj
    have hlt := ReadTag_lt t (curr - prob) cj
    have hne := hfull (curr - prob) (by omega) (by omega) cj hcj
    have hmv := movedTag_eq _ prob hlt hcond
    have hm15 : ReadTag t (curr - prob) cj &&& 15 = ReadTag t (curr - prob) cj % 16 :=
      Nat.and_pow_two_sub_one_eq_mod _ 4
    have hmod : movedTag (ReadTag t (curr - prob) cj) prob % 65536
        = ReadTag t (curr - prob) cj + prob := by
      rw [hmv]
      rw [hm15] at hcond
      omega
    rw [hmod, pairWeight_mod, pairWeight_mod] at hw
    rw [hkeep (curr - prob) (by omega) (by omega) cj hcj]
    have hdec : pairWeight t.num_buckets_ a curr (ReadTag t (curr - prob) cj + prob)
        = pairWeight t.num_buckets_ a (curr - prob) (ReadTag t (curr - prob) cj) := by
      unfold pairWeight
      rw [decodeTag_moved _ curr prob _ (by omega) hne hcond]
    have := hsum a
    omega

/-- A successful `Add` adds exactly one slot decoding to the key's pair and changes
no other count of decoded pairs. -/
theorem Add_true_tagSum {t : WormholeFilter} (hwf : PowTwoBuckets t) (item : Nat)
    (h : (Add t item).1 = true) (a : Int × Nat) :
    tagSum (pairWeight t.num_buckets_ a) (Add t item).2 =
      tagSum (pairWeight t.num_buckets_ a) t + (if a = keyPair t item then 1 else 0) := by
  rw [Add_eq_AddLoop] at h ⊢
  rcases AddLoop_rule t _ (TagHash (hasher_ item >>> 32)) (init_add_lt hwf (hasher_ item))
      (fun t' c j => (∀ b, IndexHash t (hasher_ item) ≤ b → b < c → ∀ j', j' < 4 →
          ReadTag t' b j' ≠ 0) ∧
        ∀ a, tagSum (pairWeight t.num_buckets_ a) t' =
          tagSum (pairWeight t.num_buckets_ a) t
            + pairWeight t.num_buckets_ a c (ReadTag t' c j))
      (fun c j _ _ _ hz hfull _ => ⟨hfull, fun a => by rw [hz, pairWeight_zero]; rfl⟩)
      (fun t' curr j prob cj hP hnb hj h16 hcB h1 h15 hcj hcond => by
        have := decoded_step t (PowTwoBuckets_of_eq hwf hnb) hj hcj h16
          (by rw [hnb]; exact hcB) h1 h15 hcond (by rw [hnb]; exact hP)
        rw [hnb] at this
        exact this) with
    ⟨he, _⟩ | ⟨t', c, j, ⟨_, hsum⟩, hnb, hj, hic, _, ⟨hc16, he⟩ | ⟨_, _, he⟩⟩
  · rw [he] at h; simp at h
  · rw [he]
    have hwf' := PowTwoBuckets_of_eq hwf hnb
    have hd : c - IndexHash t (hasher_ item) < 16 := by omega
    have hw := tagSum_WriteTag hwf' (pairWeight t.num_buckets_ a) c j
      ((TagHash (hasher_ item >>> 32) <<< 4) ||| (c - IndexHash t (hasher_ item))) hj
    rw [Nat.mod_eq_of_lt (needle_lt _ _ (TagHash_lt _) hd), hnb, pairWeight_mod,
      pairWeight_mod] at hw
    have hsa := hsum a
    have hfin : pairWeight t.num_buckets_ a c
        ((TagHash (hasher_ item >>> 32) <<< 4) ||| (c - IndexHash t (hasher_ item)))
        = if a = keyPair t item then 1 else 0 := by
      unfold pairWeight
      rw [decodeTag_needle _ _ _ _ (TagHash_pos _) hic hc16 (IndexHash_lt hwf _)]
      unfold keyPair
      by_cases hak : a = ((IndexHash t (hasher_ item) : Int), TagHash (hasher_ item >>> 32))
      · rw [if_pos hak, if_pos (by rw [hak])]
      · rw [if_neg hak, if_neg (fun e => hak (Option.some.inj e).symm)]
    simp only
    omega
  · rw [he] at h; simp at h

/-- A successful `Add` adds the key's pair to the multiset of decoded pairs. -/
theorem Add_true_decoded {t : WormholeFilter} (hwf : PowTwoBuckets t) (item : Nat)
    (h : (Add t item).1 = true) :
    decoded (Add t item).2 = keyPair t item ::ₘ decoded t := by
  rw [Multiset.ext]
  intro a
  rw [Multiset.count_cons, count_decoded, count_decoded, Add_num_buckets hwf item,
    Add_true_tagSum hwf item h a]

/-! ## Tables of at most 16 buckets and fresh tables -/

/-- On a table of at most 16 buckets `Add` never enters the displacement loop: it
returns `true`, or every slot is occupied and it returns `false` with the table as it
was. -/
theorem Add_small {t : WormholeFilter} (hwf : PowTwoBuckets t) (hB : t.num_buckets_ ≤ 16)
    (item : Nat) :
    (Add t item).1 = true ∨
      (Add t item = (false, t) ∧ ∀ b j, j < 4 → ReadTag t b j ≠ 0) := by
  have hpos := PowTwoBuckets_pos hwf
  have hlt := IndexHash_lt hwf (hasher_ item)
  rw [Add_eq_AddLoop]
  rcases AddLoop_rule t _ (TagHash (hasher_ item >>> 32)) (init_add_lt hwf (hasher_ item))
      (fun _ _ _ => True) (fun _ _ _ _ _ _ _ _ => trivial)
      (fun _ _ _ _ _ _ _ _ _ _ _ _ _ _ => trivial) with
    ⟨he, hfull⟩ | ⟨t', c, j, _, _, _, hic, hcB, ⟨_, he⟩ | ⟨hc16, _, _⟩⟩
  · right
    refine ⟨he, ?_⟩
    intro b j hj
    have hr : b % t.num_buckets_ < t.num_buckets_ := Nat.mod_lt _ hpos
    by_cases hge : IndexHash t (hasher_ item) ≤ b % t.num_buckets_
    · rw [ReadTag_congr hwf j (Nat.mod_mod _ _).symm]
      exact hfull _ hge (by omega) j hj
    · have hm : b % t.num_buckets_ = (b % t.num_buckets_ + t.num_buckets_) % t.num_buckets_ := by
        rw [Nat.add_mod_right, Nat.mod_mod]
      rw [ReadTag_congr hwf j hm]
      exact hfull _ (by omega) (by omega) j hj
  · left
    rw [he]
  · omega

/-- A failed `Add` on a table of at most 16 buckets leaves the table as it was. -/
theorem Add_small_false {t : WormholeFilter} (hwf : PowTwoBuckets t)
    (hB : t.num_buckets_ ≤ 16) (item : Nat) (h : ¬ (Add t item).1 = true) :
    (Add t item).2 = t := by
  rcases Add_small hwf hB item with h1 | ⟨h1, _⟩
  · exact absurd h1 h
  · rw [h1]

theorem slotOcc_le_one (t : WormholeFilter) (i j : Nat) : slotOcc t i j ≤ 1 := by
  unfold slotOcc
  split <;> omega

theorem occupied_one_bucket {t : WormholeFilter} (hB : t.num_buckets_ = 1) :
    occupied t = slotOcc t 0 0 + slotOcc t 0 1 + slotOcc t 0 2 + slotOcc t 0 3 := by
  unfold occupied
  rw [hB]
  rfl

/-- A one-bucket table with fewer than four occupied slots accepts the next key. -/
theorem Add_one_bucket_true {t : WormholeFilter} (hwf : PowTwoBuckets t)
    (hB : t.num_buckets_ = 1) (item : Nat) (hocc : occupied t < 4) :
    (Add t item).1 = true := by
  rcases Add_small hwf (by omega) item with h | ⟨_, hfull⟩
  · exact h
  · rw [occupied_one_bucket hB, slotOcc_eq_one (hfull 0 0 (by omega)),
      slotOcc_eq_one (hfull 0 1 (by omega)), slotOcc_eq_one (hfull 0 2 (by omega)),
      slotOcc_eq_one (hfull 0 3 (by omega))] at hocc
    omega

/-- A one-bucket table with four occupied slots rejects the next key and stays as it
is. -/
theorem Add_one_bucket_false {t : WormholeFilter} (hwf : PowTwoBuckets t)
    (hB : t.num_buckets_ = 1) (item : Nat) (hocc : occupied t = 4) :
    Add t item = (false, t) := by
  rcases Add_small hwf (by omega) item with h | ⟨h, _⟩
  · have h1 := Add_true_occupied hwf item h
    have hB' : (Add t item).2.num_buckets_ = 1 := by rw [Add_num_buckets hwf item, hB]
    have h2 := occupied_one_bucket hB'
    have := slotOcc_le_one (Add t item).2 0 0
    have := slotOcc_le_one (Add t item).2 0 1
    have := slotOcc_le_one (Add t item).2 0 2
    have := slotOcc_le_one (Add t item).2 0 3
    omega
  · exact h

/-- The table of a filter whose constructor zeroed it holds no occupied slot. -/
theorem construct_occupied (raw : Nat → Fin 256) (cap : Nat) (hcap : cap < 2 ^ 30 + 4) :
    occupied (construct raw cap) = 0 := by
  unfold occupied
  apply List.sum_eq_zero
  intro x hx
  obtain ⟨b, _, rfl⟩ := List.mem_map.1 hx
  unfold bucketOcc
  rw [slotOcc_eq_zero (construct_ReadTag raw cap hcap b 0),
    slotOcc_eq_zero (construct_ReadTag raw cap hcap b 1),
    slotOcc_eq_zero (construct_ReadTag raw cap hcap b 2),
    slotOcc_eq_zero (construct_ReadTag raw cap hcap b 3)]
  rfl

/-- For capacities below `2 ^ 30 + 4` the constructed filter does not depend on the
initial content of the allocation. -/
theorem construct_eq (raw : Nat → Fin 256) (cap : Nat) (hcap : cap < 2 ^ 30 + 4) :
    construct raw cap = construct (fun _ => 0) cap := by
  have hx1 : 1 ≤ max 1 (cap / 4) := le_max_left _ _
  have hx2 : max 1 (cap / 4) ≤ 2 ^ 28 := by
    apply max_le
    · decide
    · omega
  have hspec := upperpower2_spec (max 1 (cap / 4)) hx1 (by omega)
  have hle : upperpower2 (max 1 (cap / 4)) ≤ 2 ^ 28 := hspec.2.2 28 hx2
  have hb : ∀ raw' : Nat → Fin 256, ∀ a, (construct raw' cap).buckets_ a = 0 := by
    intro raw' a
    unfold construct
    simp only [TAG_PER_BUK, kBytesPerBucket_eq]
    rw [Nat.mod_eq_of_lt (show upperpower2 (max 1 (cap / 4)) < 2 ^ 32 by omega),
      Nat.mod_eq_of_lt (show 8 * upperpower2 (max 1 (cap / 4)) < 2 ^ 32 by omega)]
    split
    · rfl
    · rfl
  have hbe : (construct raw cap).buckets_ = (construct (fun _ => 0) cap).buckets_ := by
    funext a
    rw [hb raw a, hb (fun _ => 0) a]
  have hs : ∀ r : Nat → Fin 256, construct r cap =
      { buckets_ := (construct r cap).buckets_, num_items_ := 0,
        num_buckets_ := upperpower2 (max 1 (cap / TAG_PER_BUK)) % 2 ^ 32 } := fun _ => rfl
  rw [hs raw, hs (fun _ => 0), hbe]

/-! ## The multiset of decoded pairs under `Add` and `Delete` -/

theorem Delete_num_buckets (t : WormholeFilter) (item : Nat) :
    (Delete t item).2.num_buckets_ = t.num_buckets_ := by
  rcases Delete_cases t item with ⟨_, h⟩ | ⟨p, j, _, _, _, _, _, h⟩
  · rw [h]
  · rw [h]
    exact WriteTag_num_buckets _ _ _ _

theorem Delete_PowTwoBuckets {t : WormholeFilter} (hwf : PowTwoBuckets t) (item : Nat) :
    PowTwoBuckets (Delete t item).2 :=
  PowTwoBuckets_of_eq hwf (Delete_num_buckets t item)

theorem keyPair_congr {t t' : WormholeFilter} (h : t'.num_buckets_ = t.num_buckets_)
    (item : Nat) : keyPair t' item = keyPair t item := by
  unfold keyPair
  rw [IndexHash_congr h]

/-- A key found by the slot-by-slot test has its pair among the decoded pairs. -/
theorem Present_mem_decoded {t : WormholeFilter} (hwf : PowTwoBuckets t) (item : Nat)
    (h : Present t (IndexHash t (hasher_ item)) (TagHash (hasher_ item >>> 32))) :
    keyPair t item ∈ decoded t := by
  obtain ⟨p, hp, j, hj, hr⟩ := h
  simp only [MAX_PROB, TAG_PER_BUK] at hp hj
  have hpos := PowTwoBuckets_pos hwf
  rw [← Multiset.count_pos, count_decoded]
  have hle := le_tagSum (pairWeight t.num_buckets_ (keyPair t item)) t
    ((IndexHash t (hasher_ item) + p) % t.num_buckets_) j (Nat.mod_lt _ hpos) hj
  rw [ReadTag_congr hwf j (Nat.mod_mod _ _), hr, pairWeight_mod] at hle
  have hone : pairWeight t.num_buckets_ (keyPair t item) (IndexHash t (hasher_ item) + p)
      ((TagHash (hasher_ item >>> 32) <<< 4) ||| p) = 1 := by
    unfold pairWeight keyPair
    have := decodeTag_needle t.num_buckets_ (IndexHash t (hasher_ item))
      (IndexHash t (hasher_ item) + p) (TagHash (hasher_ item >>> 32)) (TagHash_pos _)
      (by omega) (by omega) (IndexHash_lt hwf _)
    rw [Nat.add_sub_cancel_left] at this
    rw [this, if_pos rfl]
  omega

/-- A pair among the decoded pairs is found by the slot-by-slot test. -/
theorem mem_decoded_Present {t : WormholeFilter} (hwf : PowTwoBuckets t) (h F : Nat)
    (hh : h < t.num_buckets_) (hm : ((h : Int), F) ∈ decoded t) : Present t h F := by
  rw [← Multiset.count_pos, count_decoded] at hm
  have hex : ∃ b, b < t.num_buckets_ ∧ ∃ j, j < 4 ∧
      pairWeight t.num_buckets_ ((h : Int), F) b (ReadTag t b j) ≠ 0 := by
    by_contra hno
    have := tagSum_eq_zero (pairWeight t.num_buckets_ ((h : Int), F)) t (fun b hb j hj => by
      by_contra hne
      exact hno ⟨b, hb, j, hj, hne⟩)
    omega
  obtain ⟨b, hb, j, hj, hw⟩ := hex
  unfold pairWeight at hw
  have hdec : decodeTag t.num_buckets_ b (ReadTag t b j) = some ((h : Int), F) := by
    by_contra hne
    rw [if_neg hne] at hw
    exact hw rfl
  unfold decodeTag at hdec
  split at hdec
  · exact absurd hdec (by simp)
  · rename_i hnz
    simp only [Option.some.injEq, Prod.mk.injEq, DIS_MASK] at hdec
    obtain ⟨hhome, hF⟩ := hdec
    have h15 : ReadTag t b j &&& 15 = ReadTag t b j % 16 :=
      Nat.and_pow_two_sub_one_eq_mod _ 4
    rw [h15] at hhome
    rw [Nat.shiftRight_eq_div_pow] at hF
    have hd : ReadTag t b j % 16 < 16 := Nat.mod_lt _ (by decide)
    refine ⟨ReadTag t b j % 16, hd, j, hj, ?_⟩
    have hmod : (h + ReadTag t b j % 16) % t.num_buckets_ = b % t.num_buckets_ := by
      have h1 : ((h + ReadTag t b j % 16 : Nat) : Int) ≡ (b : Int) [ZMOD (t.num_buckets_ : Int)] := by
        have h2 : ((b : Int) - ((ReadTag t b j % 16 : Nat) : Int)) ≡ (h : Int)
            [ZMOD (t.num_buckets_ : Int)] := by
          have hhB : (h : Int) < (t.num_buckets_ : Int) := by exact_mod_cast hh
          unfold Int.ModEq
          rw [Int.emod_eq_of_lt (Int.natCast_nonneg h) hhB]
          exact hhome
        have h3 := h2.symm.add_right ((ReadTag t b j % 16 : Nat) : Int)
        rw [sub_add_cancel] at h3
        push_cast
        exact h3
      exact Int.natCast_modEq_iff.1 h1
    rw [ReadTag_congr hwf j hmod, needle_eq F _ hd, ← hF]
    omega

/-- The method `Delete` removes one occurrence of the key's pair from the multiset of
decoded pairs (none when the pair is not there). -/
theorem Delete_decoded {t : WormholeFilter} (hwf : PowTwoBuckets t) (item : Nat) :
    decoded (Delete t item).2 = (decoded t).erase (keyPair t item) := by
  rcases Delete_cases t item with ⟨hnone, he⟩ | ⟨p, j, hp, hj, hr, _, _, he⟩
  · rw [he]
    symm
    apply Multiset.erase_of_not_mem
    intro hm
    obtain ⟨p, hp, j, hj, hr⟩ := mem_decoded_Present hwf _ _ (IndexHash_lt hwf _) hm
    exact hnone p hp j hj hr
  · rw [he]
    simp only
    rw [Multiset.ext]
    intro a
    rw [count_decoded, WriteTag_num_buckets]
    have hw := tagSum_WriteTag hwf (pairWeight t.num_buckets_ a)
      (IndexHash t (hasher_ item) + p) j 0 hj
    rw [hr, Nat.zero_mod, pairWeight_zero, pairWeight_mod] at hw
    have hdec := decodeTag_needle t.num_buckets_ (IndexHash t (hasher_ item))
      (IndexHash t (hasher_ item) + p) (TagHash (hasher_ item >>> 32)) (TagHash_pos _)
      (by omega) (by omega) (IndexHash_lt hwf _)
    rw [Nat.add_sub_cancel_left] at hdec
    by_cases hak : a = keyPair t item
    · rw [hak, Multiset.count_erase_self, count_decoded]
      rw [hak] at hw
      have hone : pairWeight t.num_buckets_ (keyPair t item) (IndexHash t (hasher_ item) + p)
          ((TagHash (hasher_ item >>> 32) <<< 4) ||| p) = 1 := by
        unfold pairWeight keyPair
        rw [hdec, if_pos rfl]
      omega
    · rw [Multiset.count_erase_of_ne hak, count_decoded]
      have hzero : pairWeight t.num_buckets_ a (IndexHash t (hasher_ item) + p)
          ((TagHash (hasher_ item >>> 32) <<< 4) ||| p) = 0 := by
        unfold pairWeight
        rw [hdec, if_neg]
        intro e
        exact hak (Option.some.inj e).symm
      omega

/-- No pair decodes from the table of a filter whose constructor zeroed it. -/
theorem construct_decoded (raw : Nat → Fin 256) (cap : Nat) (hcap : cap < 2 ^ 30 + 4) :
    decoded (construct raw cap) = 0 := by
  rw [Multiset.ext]
  intro a
  rw [count_decoded, Multiset.count_zero]
  apply tagSum_eq_zero
  intro b _ j _
  rw [construct_ReadTag raw cap hcap, pairWeight_zero]

/-- On a table of at most 16 buckets a sequence of `Add` calls adds the pairs of the
keys whose call returned `true`, and nothing else, to the decoded pairs. -/
theorem runAdds_decoded : ∀ (keys : List Nat) {t : WormholeFilter},
    PowTwoBuckets t → t.num_buckets_ ≤ 16 →
      decoded (runAdds t keys) =
        (((addedKeys t keys).map (keyPair t) : List (Int × Nat)) : Multiset (Int × Nat))
          + decoded t := by
  intro keys
  induction keys with
  | nil =>
    intro t _ _
    simp [runAdds, addedKeys]
  | cons k ks ih =>
    intro t hwf hB
    have hnb := Add_num_buckets hwf k
    have hkp : keyPair (Add t k).2 = keyPair t := funext (keyPair_congr hnb)
    unfold runAdds addedKeys
    rw [ih (Add_PowTwoBuckets hwf k) (by rw [hnb]; exact hB), hkp]
    by_cases hb : (Add t k).1 = true
    · rw [if_pos hb, Add_true_decoded hwf k hb, List.map_cons, ← Multiset.cons_coe,
        Multiset.cons_add, Multiset.add_cons]
    · rw [if_neg hb, Add_small_false hwf hB k hb]

/-- A sequence of `Delete` calls subtracts the pairs of its keys from the decoded
pairs. -/
theorem runDeletes_decoded : ∀ (ks : List Nat) {t : WormholeFilter},
    PowTwoBuckets t →
      decoded (runDeletes t ks) =
        decoded t - ((ks.map (keyPair t) : List (Int × Nat)) : Multiset (Int × Nat)) := by
  intro ks
  induction ks with
  | nil =>
    intro t _
    simp [runDeletes]
  | cons k ks ih =>
    intro t hwf
    have hnb := Delete_num_buckets t k
    have hkp : keyPair (Delete t k).2 = keyPair t := funext (keyPair_congr hnb)
    unfold runDeletes
    rw [ih (Delete_PowTwoBuckets hwf k), hkp, Delete_decoded hwf k, List.map_cons,
      ← Multiset.cons_coe, Multiset.sub_cons]

theorem runAdds_num_buckets : ∀ (keys : List Nat) {t : WormholeFilter},
    PowTwoBuckets t → (runAdds t keys).num_buckets_ = t.num_buckets_
  | [], _, _ => rfl
  | k :: ks, _, h =>
    (runAdds_num_buckets ks (Add_PowTwoBuckets h k)).trans (Add_num_buckets h k)

theorem runDeletes_num_buckets : ∀ (ks : List Nat) (t : WormholeFilter),
    (runDeletes t ks).num_buckets_ = t.num_buckets_
  | [], _ => rfl
  | k :: ks, t => (runDeletes_num_buckets ks (Delete t k).2).trans (Delete_num_buckets t k)

/-! ## The fingerprint field of stored tags -/

/-- Writing zero or a tag with a non-zero fingerprint field keeps the fingerprint
invariant. -/
theorem FingerprintsOk_WriteTag {t : WormholeFilter} (hwf : PowTwoBuckets t)
    (hok : FingerprintsOk t) (i j v : Nat) (hj : j < 4)
    (hv : v % 65536 ≠ 0 → 1 ≤ (v % 65536) >>> 4) : FingerprintsOk (WriteTag t i j v) := by
  intro i' j' hj' hne
  rw [ReadTag_WriteTag_mod hwf i j v i' j' hj hj'] at hne ⊢
  split
  · rename_i hc
    rw [if_pos hc] at hne
    refine ⟨hv hne, ?_⟩
    rw [Nat.shiftRight_eq_div_pow]
    omega
  · rename_i hc
    rw [if_neg hc] at hne
    exact hok i' j' hj' hne

/-- The fingerprint invariant of the displacement loop: every bucket from the home
bucket up to the current one is full, so each candidate is a stored non-zero tag, and
each move re-stores it with the same fingerprint field. -/
theorem FingerprintsOk_step {t : WormholeFilter} (hwf : PowTwoBuckets t)
    {init curr j prob cj : Nat}
    (hj : j < 4) (hcj : cj < 4) (h16 : init + 16 ≤ curr) (hcB : curr < init + t.num_buckets_)
    (h1 : 1 ≤ prob) (h15 : prob ≤ 15)
    (hcond : (ReadTag t (curr - prob) cj &&& 15) + prob < 16)
    (hP : (∀ b, init ≤ b → b < curr → ∀ j', j' < 4 → ReadTag t b j' ≠ 0) ∧ FingerprintsOk t) :
    (∀ b, init ≤ b → b < curr - prob → ∀ j', j' < 4 →
        ReadTag (WriteTag t curr j (movedTag (ReadTag t (curr - prob) cj) prob)) b j' ≠ 0) ∧
      FingerprintsOk (WriteTag t curr j (movedTag (ReadTag t (curr - prob) cj) prob)) := by
  obtain ⟨hfull, hok⟩ := hP
  have hkeep : ∀ b, init ≤ b → b < curr → ∀ j', j' < 4 →
      ReadTag (WriteTag t curr j (movedTag (ReadTag t (curr - prob) cj) prob)) b j' =
        ReadTag t b j' := by
    intro b hb1 hb2 j' hj'
    rw [ReadTag_WriteTag_mod hwf _ _ _ _ _ hj hj', if_neg]
    rintro ⟨hm, _⟩
    exact mod_ne_of_lt hb2 (by omega) hm.symm
  refine ⟨?_, ?_⟩
  · intro b hb1 hb2 j' hj'
    rw [hkeep b hb1 (by omega) j' hj']
    exact hfull b hb1 (by omega) j' hj'
  · apply FingerprintsOk_WriteTag hwf hok _ _ _ hj
    intro _
    have hlt := ReadTag_lt t (curr - prob) cj
    have hne := hfull (curr - prob) (by omega) (by omega) cj hcj
    have hfp := (hok (curr - prob) cj hcj hne).1
    have hm15 : ReadTag t (curr - prob) cj &&& 15 = ReadTag t (curr - prob) cj % 16 :=
      Nat.and_pow_two_sub_one_eq_mod _ 4
    rw [movedTag_eq _ prob hlt hcond]
    rw [hm15] at hcond
    rw [Nat.shiftRight_eq_div_pow] at hfp ⊢
    omega

/-- The method `Add` keeps the fingerprint invariant, whatever it returns. -/
theorem Add_FingerprintsOk {t : WormholeFilter} (hwf : PowTwoBuckets t)
    (hok : FingerprintsOk t) (item : Nat) : FingerprintsOk (Add t item).2 := by
  rw [Add_eq_AddLoop]
  rcases AddLoop_rule t _ (TagHash (hasher_ item >>> 32)) (init_add_lt hwf (hasher_ item))
      (fun t' c _ => (∀ b, IndexHash t (hasher_ item) ≤ b → b < c → ∀ j', j' < 4 →
          ReadTag t' b j' ≠ 0) ∧ FingerprintsOk t')
      (fun c j _ _ _ _ hfull _ => ⟨hfull, hok⟩)
      (fun t' curr j prob cj hP hnb hj h16 hcB h1 h15 hcj hcond =>
        FingerprintsOk_step (PowTwoBuckets_of_eq hwf hnb) hj hcj h16 (by rw [hnb]; exact hcB)
          h1 h15 hcond hP) with
    ⟨he, _⟩ | ⟨t', c, j, ⟨_, hok'⟩, hnb, hj, hic, _, ⟨hc16, he⟩ | ⟨_, _, he⟩⟩
  · rw [he]
    exact hok
  · rw [he]
    have hd : c - IndexHash t (hasher_ item) < 16 := by omega
    apply FingerprintsOk_WriteTag (PowTwoBuckets_of_eq hwf hnb) hok' _ _ _ hj
    intro _
    rw [Nat.mod_eq_of_lt (needle_lt _ _ (TagHash_lt _) hd), needle_eq _ _ hd,
      Nat.shiftRight_eq_div_pow]
    have := TagHash_pos (hasher_ item >>> 32)
    omega
  · rw [he]
    exact hok'

/-- The method `Delete` keeps the fingerprint invariant. -/
theorem Delete_FingerprintsOk {t : WormholeFilter} (hwf : PowTwoBuckets t)
    (hok : FingerprintsOk t) (item : Nat) : FingerprintsOk (Delete t item).2 := by
  rcases Delete_cases t item with ⟨_, he⟩ | ⟨p, j, _, hj, _, _, _, he⟩
  · rw [he]
    exact hok
  · rw [he]
    exact FingerprintsOk_WriteTag hwf hok _ _ 0 hj (fun h => absurd rfl h)

theorem runOps_PowTwoBuckets : ∀ (ops : List Op) {t : WormholeFilter},
    PowTwoBuckets t → PowTwoBuckets (runOps t ops)
  | [], _, h => h
  | Op.add k :: ops, _, h => runOps_PowTwoBuckets ops (Add_PowTwoBuckets h k)
  | Op.delete k :: ops, _, h => runOps_PowTwoBuckets ops (Delete_PowTwoBuckets h k)

/-- Every sequence of `Add` and `Delete` calls keeps the fingerprint invariant. -/
theorem runOps_FingerprintsOk : ∀ (ops : List Op) {t : WormholeFilter},
    PowTwoBuckets t → FingerprintsOk t → FingerprintsOk (runOps t ops)
  | [], _, _, hok => hok
  | Op.add k :: ops, _, h, hok =>
    runOps_FingerprintsOk ops (Add_PowTwoBuckets h k) (Add_FingerprintsOk h hok k)
  | Op.delete k :: ops, _, h, hok =>
    runOps_FingerprintsOk ops (Delete_PowTwoBuckets h k) (Delete_FingerprintsOk h hok k)

/-- A filter whose constructor zeroed the table (capacities below `2 ^ 30 + 4`)
satisfies the fingerprint invariant in every state reached by `Add` and `Delete`. -/
theorem construct_runOps_FingerprintsOk (raw : Nat → Fin 256) (cap : Nat)
    (hcap : cap < 2 ^ 30 + 4) (ops : List Op) :
    FingerprintsOk (runOps (construct raw cap) ops) :=
  runOps_FingerprintsOk ops (construct_PowTwoBuckets raw cap (by omega))
    (fun i j _ hne => absurd (construct_ReadTag raw cap hcap i j) hne)

/-! ## The claims -/

/-- C1: no false negatives. For every 32-bit capacity, every initial content of the
allocated storage and every finite sequence of `Add` calls on the freshly constructed
filter, each key whose `Add` returned `true` is reported present by `Contain` in the
final table (also when later calls displaced its tag or returned `false`). -/
theorem C1_no_false_negatives (raw : Nat → Fin 256) (max_num_keys : Nat)
    (hcap : max_num_keys < 2 ^ 32) (keys : List Nat) :
    ∀ k, k ∈ addedKeys (construct raw max_num_keys) keys →
      Contain (runAdds (construct raw max_num_keys) keys) k = true :=
  addedKeys_Contain keys (construct_PowTwoBuckets raw max_num_keys hcap)

/-- C1, witness: capacity 8 (two buckets) and ten keys. -/
theorem C1_no_false_negatives_witness :
    (8 : Nat) < 2 ^ 32 ∧
    ∀ k, k ∈ addedKeys (construct (fun _ => 0) 8) [7, 7, 9, 11, 13, 15, 17, 19, 21, 23] →
      Contain (runAdds (construct (fun _ => 0) 8) [7, 7, 9, 11, 13, 15, 17, 19, 21, 23]) k
        = true :=
  ⟨by decide, C1_no_false_negatives (fun _ => 0) 8 (by decide) _⟩

/-- C2 at the failing input: on the capacity-128 filter (32 buckets), after the 68
successful `Add` calls of `fillKeys`, `Add(0)` returns `false` although it has written:
slot 0 of bucket 17, empty before the call, holds afterwards a copy (tag 17, distance
1) of the tag that is still in slot 0 of bucket 16 (tag 16, distance 0). -/
theorem C2_failed_Add_writes :
    (construct (fun _ => 0) 128).num_buckets_ = 32 ∧
    (addedKeys (construct (fun _ => 0) 128) fillKeys).length = 68 ∧
    (Add (runAdds (construct (fun _ => 0) 128) fillKeys) 0).1 = false ∧
    ReadTag (runAdds (construct (fun _ => 0) 128) fillKeys) 17 0 = 0 ∧
    ReadTag (Add (runAdds (construct (fun _ => 0) 128) fillKeys) 0).2 17 0 = 17 ∧
    ReadTag (Add (runAdds (construct (fun _ => 0) 128) fillKeys) 0).2 16 0 = 16 := by
  decide!

/-- C3 at the failing input: with capacity `2 ^ 31` the bucket count is `2 ^ 29`, the
32-bit byte count handed to `memset` is 0, and on storage that held `0xFF` bytes the
fresh filter reports the key `0xFFFFFFFFFFFFFFFF` present. -/
theorem C3_fresh_Contain_wrap :
    (construct (fun _ => 255) 2147483648).num_buckets_ = 536870912 ∧
    (kBytesPerBucket * (construct (fun _ => 255) 2147483648).num_buckets_) % 2 ^ 32 = 0 ∧
    Contain (construct (fun _ => 255) 2147483648) 0xFFFFFFFFFFFFFFFF = true := by
  decide

/-- C4: insert/remove round trip. For every table with a power-of-two bucket count
and every key, if `Add(k)` returns `true` then the occupied-slot count rises by
exactly one, the following `Delete(k)` returns `true` and lowers the count by
exactly one, so the table after both calls has as many occupied slots as before. -/
theorem C4_Add_Delete_round_trip (t : WormholeFilter) (hwf : PowTwoBuckets t) (item : Nat)
    (hadd : (Add t item).1 = true) :
    (Delete (Add t item).2 item).1 = true ∧
    occupied (Add t item).2 = occupied t + 1 ∧
    occupied (Delete (Add t item).2 item).2 + 1 = occupied (Add t item).2 ∧
    occupied (Delete (Add t item).2 item).2 = occupied t := by
  have hwf' := Add_PowTwoBuckets hwf item
  have hocc := Add_true_occupied hwf item hadd
  have hpres := Add_true_Present hwf item hadd
  rw [← IndexHash_congr (Add_num_buckets hwf item)] at hpres
  rcases Delete_cases (Add t item).2 item with ⟨hnone, _⟩ | ⟨p, j, hp, hj, hm, _, _, he⟩
  · obtain ⟨p, hp, j, hj, hm⟩ := hpres
    exact absurd hm (hnone p hp j hj)
  · rw [he]
    have hw := occupied_WriteTag hwf' (IndexHash (Add t item).2 (hasher_ item) + p) j 0 hj
    have hs : slotOcc (Add t item).2 (IndexHash (Add t item).2 (hasher_ item) + p) j = 1 := by
      apply slotOcc_eq_one
      rw [hm]
      exact needle_ne_zero item p hp
    rw [hs] at hw
    simp only [Nat.zero_mod, if_true] at hw
    simp only
    refine ⟨trivial, hocc, ?_, ?_⟩ <;> omega

/-- C4, witness: the table after `Add(5)` on a capacity-8 filter, and the key 7. -/
theorem C4_Add_Delete_round_trip_witness :
    PowTwoBuckets (Add (construct (fun _ => 0) 8) 5).2 ∧
    (Add (Add (construct (fun _ => 0) 8) 5).2 7).1 = true ∧
    (Delete (Add (Add (construct (fun _ => 0) 8) 5).2 7).2 7).1 = true ∧
    occupied (Add (Add (construct (fun _ => 0) 8) 5).2 7).2
      = occupied (Add (construct (fun _ => 0) 8) 5).2 + 1 ∧
    occupied (Delete (Add (Add (construct (fun _ => 0) 8) 5).2 7).2 7).2 + 1
      = occupied (Add (Add (construct (fun _ => 0) 8) 5).2 7).2 ∧
    occupied (Delete (Add (Add (construct (fun _ => 0) 8) 5).2 7).2 7).2
      = occupied (Add (construct (fun _ => 0) 8) 5).2 :=
  ⟨⟨1, by decide, by decide⟩, by decide,
    C4_Add_Delete_round_trip (Add (construct (fun _ => 0) 8) 5).2 ⟨1, by decide, by decide⟩ 7
      (by decide)⟩

/-- C5, counterexample: for capacity 5 the constructor makes 1 bucket, while the
least power of two at or above `max 1 (ceil (5 / 4)) = 2` is 2; and for capacity
`2 ^ 31` on storage that held `0xFF` bytes the first tag of the new table is `0xFFFF`,
not zero (the 32-bit `memset` length is 0). -/
theorem C5_counterexample :
    ((construct (fun _ => 0) 5).num_buckets_ = 1 ∧
      ¬ IsLeastPow2 (construct (fun _ => 0) 5).num_buckets_ (max 1 ((5 + 3) / 4))) ∧
    ReadTag (construct (fun _ => 255) 2147483648) 0 0 = 65535 := by
  refine ⟨⟨by decide, ?_⟩, by decide⟩
  rintro ⟨_, h, _⟩
  have : (construct (fun _ => 0) 5).num_buckets_ = 1 := by decide
  rw [this] at h
  simp at h

/-- C5, amended: for every 32-bit capacity the bucket count is the least power of two
at or above `max 1 (capacity / 4)` with the quotient rounded down, and for
capacities below `2 ^ 30 + 4` every tag of the new table is zero. -/
theorem C5_construct_buckets (raw : Nat → Fin 256) (max_num_keys : Nat)
    (hcap : max_num_keys < 2 ^ 32) :
    IsLeastPow2 (construct raw max_num_keys).num_buckets_ (max 1 (max_num_keys / 4)) ∧
    (max_num_keys < 2 ^ 30 + 4 → ∀ i j, j < 4 → ReadTag (construct raw max_num_keys) i j = 0) :=
  ⟨(construct_IsLeastPow2 raw max_num_keys hcap).1,
    fun h i j _ => construct_ReadTag raw max_num_keys h i j⟩

/-- C5, witness: capacity 5 on storage that held the byte 7. -/
theorem C5_construct_buckets_witness :
    (5 : Nat) < 2 ^ 32 ∧
    IsLeastPow2 (construct (fun _ => 7) 5).num_buckets_ (max 1 (5 / 4)) ∧
    ((5 : Nat) < 2 ^ 30 + 4 → ∀ i j, j < 4 → ReadTag (construct (fun _ => 7) 5) i j = 0) :=
  ⟨by decide, C5_construct_buckets (fun _ => 7) 5 (by decide)⟩

/-- C6 at the failing input: with capacity `2 ^ 31` the filter has `2 ^ 29` buckets
(4 GiB of tags) and `SizeInBytes` returns 0, not `8 * 2 ^ 29`. -/
theorem C6_SizeInBytes_wraps (raw : Nat → Fin 256) :
    (construct raw 2147483648).num_buckets_ = 536870912 ∧
    SizeInBytes (construct raw 2147483648) = 0 ∧
    8 * (construct raw 2147483648).num_buckets_ = 4294967296 := by
  have h : (construct raw 2147483648).num_buckets_ = 536870912 := by
    rw [construct_num_buckets]
    decide
  unfold SizeInBytes
  rw [h]
  decide

/-- C7: `Delete(k)`, with `(h, F)` derived from `k`, returns `true` iff some `p < 16`
and `j < 4` have `ReadTag(h + p, j) = (F << 4) | p`; when it returns `true` exactly
one slot changes, the first match in scan order (`p` ascending, then `j` ascending),
which held a non-zero tag and becomes 0, and every other slot (a slot of another
bucket `MOD(i, num_buckets_)`, or another slot of the same bucket) is unchanged; when
it returns `false` the table is unchanged. Holds for every table state. -/
theorem C7_Delete_frame (t : WormholeFilter) (item : Nat) :
    ((Delete t item).1 = true ↔
      ∃ p, p < 16 ∧ ∃ j, j < 4 ∧
        ReadTag t (IndexHash t (hasher_ item) + p) j
          = ((TagHash (hasher_ item >>> 32) <<< 4) ||| p)) ∧
    ((Delete t item).1 = true →
      ∃ p, p < 16 ∧ ∃ j, j < 4 ∧
        ReadTag t (IndexHash t (hasher_ item) + p) j
          = ((TagHash (hasher_ item >>> 32) <<< 4) ||| p) ∧
        (∀ p' j', p' < 16 → j' < 4 → (p' < p ∨ (p' = p ∧ j' < j)) →
          ReadTag t (IndexHash t (hasher_ item) + p') j'
            ≠ ((TagHash (hasher_ item >>> 32) <<< 4) ||| p')) ∧
        ReadTag t (IndexHash t (hasher_ item) + p) j ≠ 0 ∧
        ReadTag (Delete t item).2 (IndexHash t (hasher_ item) + p) j = 0 ∧
        (∀ i j', j' < 4 →
          ¬ (MOD i t.num_buckets_ = MOD (IndexHash t (hasher_ item) + p) t.num_buckets_
              ∧ j' = j) →
          ReadTag (Delete t item).2 i j' = ReadTag t i j')) ∧
    ((Delete t item).1 = false → (Delete t item).2 = t) ∧
    (Delete t item).2.num_buckets_ = t.num_buckets_ := by
  rcases Delete_cases t item with ⟨hnone, he⟩ | ⟨p, j, hp, hj, hm, hfirst, hbefore, he⟩
  · rw [he]
    refine ⟨?_, ?_, fun _ => rfl, rfl⟩
    · constructor
      · intro h; simp at h
      · rintro ⟨p, hp, j, hj, hm⟩
        exact absurd hm (hnone p hp j hj)
    · intro h; simp at h
  · rw [he]
    refine ⟨⟨fun _ => ⟨p, hp, j, hj, hm⟩, fun _ => rfl⟩, ?_, ?_, rfl⟩
    · intro _
      refine ⟨p, hp, j, hj, hm, ?_, ?_, ?_, ?_⟩
      · rintro p' j' hp' hj' (hlt | ⟨rfl, hlt⟩)
        · exact hbefore p' hlt j' hj'
        · exact hfirst j' hlt
      · rw [hm]; exact needle_ne_zero item p hp
      · rw [ReadTag_WriteTag _ _ _ _ _ _ hj hj, if_pos ⟨rfl, rfl⟩]
      · intro i j' hj' hne
        rw [ReadTag_WriteTag _ _ _ _ _ _ hj hj', if_neg]
        rintro ⟨h1, h2⟩
        exact hne ⟨h1.symm, h2.symm⟩
    · intro h; simp at h

/-- C8: `Contain`, computed with the 64-bit SWAR word test on the little-endian
bucket word, equals the slot-by-slot reference `ContainRef`: it is `true` iff some
`p < 16` and `j < 4` have `ReadTag(h + p, j) = (F << 4) | p`, with `(h, F)` derived
from the key. `Contain` is a function of the table alone (a `const` method): it
returns no table, so it changes none. -/
theorem C8_Contain_refines_reference (t : WormholeFilter) (item : Nat) :
    Contain t item = ContainRef t item ∧
    (Contain t item = true ↔
      ∃ p, p < 16 ∧ ∃ j, j < 4 ∧
        ReadTag t (IndexHash t (hasher_ item) + p) j
          = ((TagHash (hasher_ item >>> 32) <<< 4) ||| p)) := by
  refine ⟨?_, Contain_iff_Present t item⟩
  rw [Bool.eq_iff_iff, Contain_iff_Present, ContainRef_iff_Present]

/-- C9, counterexample: on the capacity-4 filter (one bucket), after `Add(0)` twice, a
first `Delete(0)` returns `true` and the second `Delete(0)` returns `true` again and
clears another slot. -/
theorem C9_counterexample :
    (Delete (runAdds (construct (fun _ => 0) 4) [0, 0]) 0).1 = true ∧
    (Delete (Delete (runAdds (construct (fun _ => 0) 4) [0, 0]) 0).2 0).1 = true ∧
    ReadTag (Delete (runAdds (construct (fun _ => 0) 4) [0, 0]) 0).2 0 1 = 16 ∧
    ReadTag (Delete (Delete (runAdds (construct (fun _ => 0) 4) [0, 0]) 0).2 0).2 0 1 = 0 := by
  decide

/-- C9, amended: for every table and every key whose tag occurs at most once in its
probe window, after one `Delete(k)` a second `Delete(k)` returns `false` and leaves
the table unchanged. -/
theorem C9_second_Delete (t : WormholeFilter) (item : Nat)
    (huniq : ∀ p, p < 16 → ∀ j, j < 4 → ∀ p', p' < 16 → ∀ j', j' < 4 →
      ReadTag t (IndexHash t (hasher_ item) + p) j
        = ((TagHash (hasher_ item >>> 32) <<< 4) ||| p) →
      ReadTag t (IndexHash t (hasher_ item) + p') j'
        = ((TagHash (hasher_ item >>> 32) <<< 4) ||| p') →
      p = p' ∧ j = j') :
    (Delete (Delete t item).2 item).1 = false ∧
    (Delete (Delete t item).2 item).2 = (Delete t item).2 := by
  rcases Delete_cases t item with ⟨_, he⟩ | ⟨p, j, hp, hj, hm, _, _, he⟩
  · rw [he]
    simp only
    rw [he]
    exact ⟨rfl, rfl⟩
  · rw [he]
    simp only
    have hidx : IndexHash (WriteTag t (IndexHash t (hasher_ item) + p) j 0) (hasher_ item)
        = IndexHash t (hasher_ item) := IndexHash_congr rfl _
    rcases Delete_cases (WriteTag t (IndexHash t (hasher_ item) + p) j 0) item with
      ⟨_, he'⟩ | ⟨p', j', hp', hj', hm', _, _, _⟩
    · rw [he']
      exact ⟨rfl, rfl⟩
    · exfalso
      rw [hidx, ReadTag_WriteTag _ _ _ _ _ _ hj hj'] at hm'
      split at hm'
      · exact needle_ne_zero item p' hp' hm'.symm
      · rename_i hne
        obtain ⟨rfl, rfl⟩ := huniq p hp j hj p' hp' j' hj' hm hm'
        exact hne ⟨rfl, rfl⟩

set_option synthInstance.maxSize 2000 in
set_option synthInstance.maxHeartbeats 200000 in
/-- C9, witness: the capacity-4 table after one `Add(0)`, where the tag of key 0
occurs once. -/
theorem C9_second_Delete_witness :
    (Delete (Add (construct (fun _ => 0) 4) 0).2 0).1 = true ∧
    (Delete (Delete (Add (construct (fun _ => 0) 4) 0).2 0).2 0).1 = false ∧
    (Delete (Delete (Add (construct (fun _ => 0) 4) 0).2 0).2 0).2
      = (Delete (Add (construct (fun _ => 0) 4) 0).2 0).2 :=
  ⟨by decide, C9_second_Delete (Add (construct (fun _ => 0) 4) 0).2 0 (by decide)⟩

/-- C10 at the failing input: on the capacity-128 filter, the 69 `Add` calls of
`fillKeys ++ [0]` return `true` 68 times, and the table then holds 69 occupied
slots. -/
theorem C10_occupied_exceeds_added :
    (addedKeys (construct (fun _ => 0) 128) (fillKeys ++ [0])).length = 68 ∧
    occupied (runAdds (construct (fun _ => 0) 128) (fillKeys ++ [0])) = 69 := by
  decide!

/-- C11: hash adapter. For every 64-bit input `x` and every table whose bucket count
`B` is a power of two, the home bucket used by `Add`, `Contain` and `Delete` is
`low32(x) & (B - 1)`, which is `low32(x) mod B` and less than `B`; the fingerprint is
`(x >> 32) & 0xFFF` when that is non-zero and 1 when it is zero, so it lies in
`[1, 4095]` and the needle `(F << 4) | p` is never 0. -/
theorem C11_hash_adapter (t : WormholeFilter) (hwf : PowTwoBuckets t) (x : Nat)
    (hx : x < 2 ^ 64) :
    IndexHash t (hasher_ x) = (x % 2 ^ 32) &&& (t.num_buckets_ - 1) ∧
    IndexHash t (hasher_ x) = x % 2 ^ 32 % t.num_buckets_ ∧
    IndexHash t (hasher_ x) < t.num_buckets_ ∧
    TagHash (hasher_ x >>> 32) =
      (if (x >>> 32) &&& 0xFFF = 0 then 1 else (x >>> 32) &&& 0xFFF) ∧
    1 ≤ TagHash (hasher_ x >>> 32) ∧ TagHash (hasher_ x >>> 32) ≤ 4095 ∧
    ∀ p, ((TagHash (hasher_ x >>> 32) <<< 4) ||| p) ≠ 0 := by
  have hh : hasher_ x = x := by unfold hasher_; exact Nat.mod_eq_of_lt hx
  have hB := PowTwoBuckets_le hwf
  have hpos := PowTwoBuckets_pos hwf
  have hs : sub32 t.num_buckets_ 1 = t.num_buckets_ - 1 := sub32_eq hpos (by omega)
  have hhi : (x >>> 32) % 2 ^ 32 = x >>> 32 := by
    rw [Nat.shiftRight_eq_div_pow]
    omega
  rw [hh]
  refine ⟨?_, ?_, IndexHash_lt hwf x, ?_, TagHash_pos _, ?_, ?_⟩
  · unfold IndexHash
    rw [hs]
  · have := MOD_eq_mod hwf (x % 2 ^ 32)
    unfold MOD at this
    unfold IndexHash
    exact this
  · rw [TagHash_eq, hhi]
  · have := TagHash_lt (x >>> 32)
    omega
  · intro p h0
    have hpos := TagHash_pos (x >>> 32)
    have hle : TagHash (x >>> 32) <<< 4 ≤ (TagHash (x >>> 32) <<< 4) ||| p :=
      Nat.le_of_testBit (fun i hi => by rw [Nat.testBit_or, hi]; rfl)
    rw [h0, Nat.shiftLeft_eq] at hle
    omega

/-- C11, witness: the table after `Add(5)` on a capacity-8 filter and the key
`0x0000100000000007`, whose fingerprint field is zero and is biased to 1. -/
theorem C11_hash_adapter_witness :
    PowTwoBuckets (Add (construct (fun _ => 0) 8) 5).2 ∧ (0x0000100000000007 : Nat) < 2 ^ 64 ∧
    IndexHash (Add (construct (fun _ => 0) 8) 5).2 (hasher_ 0x0000100000000007) < 2 ∧
    TagHash (hasher_ 0x0000100000000007 >>> 32) = 1 :=
  ⟨⟨1, by decide, by decide⟩, by decide,
    (C11_hash_adapter (Add (construct (fun _ => 0) 8) 5).2 ⟨1, by decide, by decide⟩
      0x0000100000000007 (by decide)).2.2.1,
    by decide⟩

/-- C12: Scenario B over all its inputs. On a filter constructed with capacity 16
(4 buckets), for every initial content of the allocation and every list of keys
inserted with `Add` (in particular every list of 16 keys), every key whose `Add`
returned `true` satisfies `Contain`; and after one `Delete` call for each successful
`Add`, made in any order, `Contain` returns `false` for every one of those keys. -/
theorem C12_scenario_B (raw : Nat → Fin 256) (keys ds : List Nat)
    (hperm : ds.Perm (addedKeys (construct raw 16) keys)) :
    (construct raw 16).num_buckets_ = 4 ∧
    ∀ k, k ∈ addedKeys (construct raw 16) keys →
      Contain (runAdds (construct raw 16) keys) k = true ∧
      Contain (runDeletes (runAdds (construct raw 16) keys) ds) k = false := by
  have hwf0 := construct_PowTwoBuckets raw 16 (by decide)
  have hB0 : (construct raw 16).num_buckets_ = 4 := by
    rw [construct_num_buckets]
    decide
  have hwf1 := runAdds_PowTwoBuckets keys hwf0
  have hnb1 := runAdds_num_buckets keys hwf0
  have hnb2 := runDeletes_num_buckets ds (runAdds (construct raw 16) keys)
  have hwf2 := PowTwoBuckets_of_eq hwf1 hnb2
  have hkp : keyPair (runAdds (construct raw 16) keys) = keyPair (construct raw 16) :=
    funext (keyPair_congr hnb1)
  have hempty : decoded (runDeletes (runAdds (construct raw 16) keys) ds) = 0 := by
    rw [runDeletes_decoded ds hwf1, runAdds_decoded keys hwf0 (by omega),
      construct_decoded raw 16 (by decide), hkp, add_zero,
      Multiset.coe_eq_coe.2 (hperm.map (keyPair (construct raw 16)))]
    exact tsub_self _
  refine ⟨hB0, fun k hk => ⟨addedKeys_Contain keys hwf0 k hk, ?_⟩⟩
  rw [Bool.eq_false_iff]
  intro hc
  rw [Contain_iff_Present] at hc
  have hm := Present_mem_decoded hwf2 k hc
  rw [hempty] at hm
  exact Multiset.not_mem_zero _ hm

/-- C12, witness: sixteen keys on the capacity-16 filter, deleted in insertion order;
the key `0xDEADBEEFDEADBEEF` is present after the inserts and absent after the
deletes. -/
theorem C12_scenario_B_witness :
    Contain (runAdds (construct (fun _ => 0) 16)
      [0, 1, 2, 3, 0x100000000, 0x200000001, 0x300000002, 0x400000003, 4, 5, 6, 7,
        0xFFFFFFFFFFFFFFFF, 0xDEADBEEFDEADBEEF, 8, 9]) 0xDEADBEEFDEADBEEF = true ∧
    Contain (runDeletes (runAdds (construct (fun _ => 0) 16)
      [0, 1, 2, 3, 0x100000000, 0x200000001, 0x300000002, 0x400000003, 4, 5, 6, 7,
        0xFFFFFFFFFFFFFFFF, 0xDEADBEEFDEADBEEF, 8, 9])
      (addedKeys (construct (fun _ => 0) 16)
        [0, 1, 2, 3, 0x100000000, 0x200000001, 0x300000002, 0x400000003, 4, 5, 6, 7,
          0xFFFFFFFFFFFFFFFF, 0xDEADBEEFDEADBEEF, 8, 9])) 0xDEADBEEFDEADBEEF = false :=
  (C12_scenario_B (fun _ => 0)
    [0, 1, 2, 3, 0x100000000, 0x200000001, 0x300000002, 0x400000003, 4, 5, 6, 7,
      0xFFFFFFFFFFFFFFFF, 0xDEADBEEFDEADBEEF, 8, 9]
    (addedKeys (construct (fun _ => 0) 16)
      [0, 1, 2, 3, 0x100000000, 0x200000001, 0x300000002, 0x400000003, 4, 5, 6, 7,
        0xFFFFFFFFFFFFFFFF, 0xDEADBEEFDEADBEEF, 8, 9])
    (List.Perm.refl _)).2 0xDEADBEEFDEADBEEF (by decide!)

/-- C13: Scenario A. On a filter constructed with capacity 1024, whatever the initial
content of the allocation, `num_buckets_` is 256 and `SizeInBytes()` is 2048; `Add` of
`0x0000000000000000`, `0x0000000000000001`, `0x0000000100000000`,
`0xFFFFFFFFFFFFFFFF` in that order each returns `true`; `Contain` of each of the four
then returns `true`; and `Contain(0xDEADBEEFDEADBEEF)` returns `false`. -/
theorem C13_scenario_A (raw : Nat → Fin 256) :
    (construct raw 1024).num_buckets_ = 256 ∧
    SizeInBytes (construct raw 1024) = 2048 ∧
    (Add (construct raw 1024) 0x0000000000000000).1 = true ∧
    (Add (runAdds (construct raw 1024) [0x0000000000000000]) 0x0000000000000001).1 = true ∧
    (Add (runAdds (construct raw 1024) [0x0000000000000000, 0x0000000000000001])
      0x0000000100000000).1 = true ∧
    (Add (runAdds (construct raw 1024)
      [0x0000000000000000, 0x0000000000000001, 0x0000000100000000])
      0xFFFFFFFFFFFFFFFF).1 = true ∧
    Contain (runAdds (construct raw 1024) [0x0000000000000000, 0x0000000000000001,
      0x0000000100000000, 0xFFFFFFFFFFFFFFFF]) 0x0000000000000000 = true ∧
    Contain (runAdds (construct raw 1024) [0x0000000000000000, 0x0000000000000001,
      0x0000000100000000, 0xFFFFFFFFFFFFFFFF]) 0x0000000000000001 = true ∧
    Contain (runAdds (construct raw 1024) [0x0000000000000000, 0x0000000000000001,
      0x0000000100000000, 0xFFFFFFFFFFFFFFFF]) 0x0000000100000000 = true ∧
    Contain (runAdds (construct raw 1024) [0x0000000000000000, 0x0000000000000001,
      0x0000000100000000, 0xFFFFFFFFFFFFFFFF]) 0xFFFFFFFFFFFFFFFF = true ∧
    Contain (runAdds (construct raw 1024) [0x0000000000000000, 0x0000000000000001,
      0x0000000100000000, 0xFFFFFFFFFFFFFFFF]) 0xDEADBEEFDEADBEEF = false := by
  rw [construct_eq raw 1024 (by decide)]
  decide!

/-- C14: on a filter constructed with capacity 4, whatever the initial content of the
allocation, `num_buckets_` is 1; for every list of five keys the first four `Add`
calls on the fresh filter return `true`, and the fifth returns `false` and leaves the
table as it was. -/
theorem C14_capacity_four (raw : Nat → Fin 256) (k1 k2 k3 k4 k5 : Nat) :
    (construct raw 4).num_buckets_ = 1 ∧
    (Add (construct raw 4) k1).1 = true ∧
    (Add (runAdds (construct raw 4) [k1]) k2).1 = true ∧
    (Add (runAdds (construct raw 4) [k1, k2]) k3).1 = true ∧
    (Add (runAdds (construct raw 4) [k1, k2, k3]) k4).1 = true ∧
    Add (runAdds (construct raw 4) [k1, k2, k3, k4]) k5
      = (false, runAdds (construct raw 4) [k1, k2, k3, k4]) := by
  have hwf0 := construct_PowTwoBuckets raw 4 (by decide)
  have hB0 : (construct raw 4).num_buckets_ = 1 := by
    rw [construct_num_buckets]
    decide
  have ho0 := construct_occupied raw 4 (by decide)
  have a1 := Add_one_bucket_true hwf0 hB0 k1 (by omega)
  have hwf1 := Add_PowTwoBuckets hwf0 k1
  have hB1 := (Add_num_buckets hwf0 k1).trans hB0
  have ho1 := Add_true_occupied hwf0 k1 a1
  have a2 := Add_one_bucket_true hwf1 hB1 k2 (by omega)
  have hwf2 := Add_PowTwoBuckets hwf1 k2
  have hB2 := (Add_num_buckets hwf1 k2).trans hB1
  have ho2 := Add_true_occupied hwf1 k2 a2
  have a3 := Add_one_bucket_true hwf2 hB2 k3 (by omega)
  have hwf3 := Add_PowTwoBuckets hwf2 k3
  have hB3 := (Add_num_buckets hwf2 k3).trans hB2
  have ho3 := Add_true_occupied hwf2 k3 a3
  have a4 := Add_one_bucket_true hwf3 hB3 k4 (by omega)
  have hwf4 := Add_PowTwoBuckets hwf3 k4
  have hB4 := (Add_num_buckets hwf3 k4).trans hB3
  have ho4 := Add_true_occupied hwf3 k4 a4
  have a5 := Add_one_bucket_false hwf4 hB4 k5 (by omega)
  exact ⟨hB0, a1, a2, a3, a4, a5⟩

/-- C15: SWAR exactness. For every 64-bit word `w` and every 16-bit value `n`, with
unsigned 64-bit wrap-around arithmetic, `hasvalue16(w, n)` is non-zero iff at least
one of the four 16-bit lanes of `w` equals `n`, and `haszero16(w)` is non-zero iff
some 16-bit lane of `w` is zero. -/
theorem C15_SWAR_exact (w n : Nat) (hw : w < 2 ^ 64) (hn : n < 2 ^ 16) :
    (hasvalue16 w n ≠ 0 ↔ ∃ i, i < 4 ∧ w / 2 ^ (16 * i) % 2 ^ 16 = n) ∧
    (haszero16 w ≠ 0 ↔ ∃ i, i < 4 ∧ w / 2 ^ (16 * i) % 2 ^ 16 = 0) := by
  constructor
  · rw [hasvalue16_ne_zero_iff w n hw hn, exists_lt_four]
    simp only [Nat.mul_zero, pow_zero, Nat.div_one, Nat.mul_one, Nat.reduceMul, Nat.reducePow]
  · rw [haszero16_ne_zero_iff w hw, exists_lt_four]
    simp only [Nat.mul_zero, pow_zero, Nat.div_one, Nat.mul_one, Nat.reduceMul, Nat.reducePow]

/-- C15, witness: the word `0x0001ABCD00000002` and the value `0xABCD` (lane 2). -/
theorem C15_SWAR_exact_witness :
    (0x0001ABCD00000002 : Nat) < 2 ^ 64 ∧ (0xABCD : Nat) < 2 ^ 16 ∧
    hasvalue16 0x0001ABCD00000002 0xABCD ≠ 0 ∧ haszero16 0x0001ABCD00000002 ≠ 0 ∧
    (hasvalue16 0x0001ABCD00000002 0xABCD ≠ 0 ↔
      ∃ i, i < 4 ∧ 0x0001ABCD00000002 / 2 ^ (16 * i) % 2 ^ 16 = 0xABCD) :=
  ⟨by decide, by decide, by decide, by decide,
    (C15_SWAR_exact 0x0001ABCD00000002 0xABCD (by decide) (by decide)).1⟩

/-- C16: `Add` without displacement. For every table with a power-of-two bucket count
and key `k` with derived `(h, F)`, if the first empty slot in scan order (buckets
`h, h + 1, ...` modulo `B`, slots 0..3 within a bucket) is slot `j` of bucket `h + d`
with `d < 16`, then `Add(k)` returns `true`, that slot becomes `(F << 4) | d`, and every
other slot of the table is unchanged. -/
theorem C16_Add_without_displacement (t : WormholeFilter) (hwf : PowTwoBuckets t)
    (item d j : Nat) (hd : d < 16) (hj : j < 4)
    (hempty : ReadTag t (IndexHash t (hasher_ item) + d) j = 0)
    (hbefore : ∀ d', d' < d → ∀ j', j' < 4 →
      ReadTag t (IndexHash t (hasher_ item) + d') j' ≠ 0)
    (hslots : ∀ j', j' < j → ReadTag t (IndexHash t (hasher_ item) + d) j' ≠ 0) :
    (Add t item).1 = true ∧
    ReadTag (Add t item).2 (IndexHash t (hasher_ item) + d) j
      = ((TagHash (hasher_ item >>> 32) <<< 4) ||| d) ∧
    (∀ i j', j' < 4 →
      ¬ (i % t.num_buckets_ = (IndexHash t (hasher_ item) + d) % t.num_buckets_ ∧ j' = j) →
      ReadTag (Add t item).2 i j' = ReadTag t i j') ∧
    (Add t item).2.num_buckets_ = t.num_buckets_ := by
  rw [Add_near hwf item d j hd hj hempty hbefore hslots]
  refine ⟨rfl, ?_, ?_, rfl⟩
  · rw [ReadTag_WriteTag_mod hwf _ _ _ _ _ hj hj, if_pos ⟨rfl, rfl⟩]
    exact Nat.mod_eq_of_lt (needle_lt _ _ (TagHash_lt _) hd)
  · intro i j' hj' hne
    rw [ReadTag_WriteTag_mod hwf _ _ _ _ _ hj hj', if_neg]
    rintro ⟨h1, h2⟩
    exact hne ⟨h1.symm, h2.symm⟩

set_option synthInstance.maxSize 2000 in
set_option synthInstance.maxHeartbeats 200000 in
/-- C16, witness: the capacity-64 table (16 buckets) after five `Add(3)`, where the
first empty slot for key 3 is slot 1 of bucket `3 + 1`. -/
theorem C16_Add_without_displacement_witness :
    PowTwoBuckets (runAdds (construct (fun _ => 0) 64) [3, 3, 3, 3, 3]) ∧
    (Add (runAdds (construct (fun _ => 0) 64) [3, 3, 3, 3, 3]) 3).1 = true ∧
    ReadTag (Add (runAdds (construct (fun _ => 0) 64) [3, 3, 3, 3, 3]) 3).2
        (IndexHash (runAdds (construct (fun _ => 0) 64) [3, 3, 3, 3, 3]) (hasher_ 3) + 1) 1
      = ((TagHash (hasher_ 3 >>> 32) <<< 4) ||| 1) :=
  ⟨⟨4, by decide, by decide⟩,
    (C16_Add_without_displacement (runAdds (construct (fun _ => 0) 64) [3, 3, 3, 3, 3])
      ⟨4, by decide, by decide⟩ 3 1 1 (by decide) (by decide) (by decide) (by decide)
      (by decide)).1,
    (C16_Add_without_displacement (runAdds (construct (fun _ => 0) 64) [3, 3, 3, 3, 3])
      ⟨4, by decide, by decide⟩ 3 1 1 (by decide) (by decide) (by decide) (by decide)
      (by decide)).2.1⟩

/-- C17: displacement preserves homes. Decode each non-zero slot at bucket `b` with tag
`t` as the pair (home `(b - (t & 15)) mod B`, fingerprint `t >> 4`). For every table
with a power-of-two bucket count and key `k` with derived `(h, F)`, if `Add(k)`
returns `true` then the multiset of decoded pairs after the call is the multiset
before the call plus one occurrence of `(h, F)`: no stored item changes its home or
fingerprint, none is lost and none is duplicated. -/
theorem C17_displacement_preserves_homes (t : WormholeFilter) (hwf : PowTwoBuckets t)
    (k : Nat) (h : (Add t k).1 = true) :
    decoded (Add t k).2 = keyPair t k ::ₘ decoded t :=
  Add_true_decoded hwf k h

/-- C17, witness: a 32-bucket table holding 60 tags with home 0 (buckets 0..14) and 4
tags with home 15 (bucket 15); `Add(0)` finds its first empty slot in bucket 16, moves
a tag of bucket 15 there and succeeds. -/
theorem C17_displacement_preserves_homes_witness :
    PowTwoBuckets (runAdds (construct (fun _ => 0) 128)
      (List.replicate 60 0 ++ List.replicate 4 15)) ∧
    (Add (runAdds (construct (fun _ => 0) 128)
      (List.replicate 60 0 ++ List.replicate 4 15)) 0).1 = true ∧
    ReadTag (Add (runAdds (construct (fun _ => 0) 128)
      (List.replicate 60 0 ++ List.replicate 4 15)) 0).2 16 0 = 0x0011 ∧
    decoded (Add (runAdds (construct (fun _ => 0) 128)
      (List.replicate 60 0 ++ List.replicate 4 15)) 0).2 =
      keyPair (runAdds (construct (fun _ => 0) 128)
        (List.replicate 60 0 ++ List.replicate 4 15)) 0 ::ₘ
        decoded (runAdds (construct (fun _ => 0) 128)
          (List.replicate 60 0 ++ List.replicate 4 15)) :=
  ⟨runAdds_PowTwoBuckets _ (construct_PowTwoBuckets _ 128 (by decide)), by decide!,
    by decide!,
    C17_displacement_preserves_homes _
      (runAdds_PowTwoBuckets _ (construct_PowTwoBuckets _ 128 (by decide))) 0 (by decide!)⟩

/-- C18: the fingerprint invariant fails on a fresh filter of capacity `2 ^ 31`. The
constructor zeroes `kBytesPerBucket * num_buckets_ = 8 * 2 ^ 29` bytes computed in
`uint32_t`, that is 0 bytes, so the table keeps the initial content of the allocation:
with the bytes 5, 0, 5, 0, ... every slot holds the non-zero tag `0x0005`, whose
fingerprint field is 0, in the fresh state and after a `Delete` call. -/
theorem C18_fingerprint_zero_after_wrap :
    ReadTag (runOps (construct (fun a => if a % 2 = 0 then 5 else 0) (2 ^ 31)) []) 0 0 = 5 ∧
    (5 : Nat) >>> 4 = 0 ∧
    ¬ FingerprintsOk (runOps (construct (fun a => if a % 2 = 0 then 5 else 0) (2 ^ 31)) []) ∧
    ¬ FingerprintsOk
      (runOps (construct (fun a => if a % 2 = 0 then 5 else 0) (2 ^ 31)) [Op.delete 0]) :=
  ⟨by decide, by decide,
    fun h => absurd (h 0 0 (by decide) (by decide)).1 (by decide),
    fun h => absurd (h 0 0 (by decide) (by decide)).1 (by decide)⟩

/-- C19: `Add` never removes membership. For every table with a power-of-two bucket
count and all keys `k` and `k'`, if `Contain(k')` is true before `Add(k)` then it is
true after `Add(k)`, whether `Add(k)` returns `true` or `false`. -/
theorem C19_Add_keeps_membership (t : WormholeFilter) (hwf : PowTwoBuckets t) (k k' : Nat)
    (h : Contain t k' = true) : Contain (Add t k).2 k' = true :=
  Add_preserves_Contain hwf k k' h

/-- C19, witness: on the 32-bucket table filled with `fillKeys`, the key 16 is
present before and after the `Add(0)` that displaces a copy of its tag and returns
`false`. -/
theorem C19_Add_keeps_membership_witness :
    PowTwoBuckets (runAdds (construct (fun _ => 0) 128) fillKeys) ∧
    Contain (runAdds (construct (fun _ => 0) 128) fillKeys) 16 = true ∧
    (Add (runAdds (construct (fun _ => 0) 128) fillKeys) 0).1 = false ∧
    Contain (Add (runAdds (construct (fun _ => 0) 128) fillKeys) 0).2 16 = true :=
  ⟨runAdds_PowTwoBuckets fillKeys (construct_PowTwoBuckets _ 128 (by decide)), by decide!,
    by decide!,
    C19_Add_keeps_membership (runAdds (construct (fun _ => 0) 128) fillKeys)
      (runAdds_PowTwoBuckets fillKeys (construct_PowTwoBuckets _ 128 (by decide))) 0 16
      (by decide!)⟩

/-- C20: for every 32-bit capacity the constructor's `num_buckets_` is a power of
two with `1 <= num_buckets_ <= 2 ^ 30`, the least power of two at or above
`max 1 (capacity / 4)` (quotient rounded down), so that `MOD(idx, num_buckets_)`, i.e.
`idx & (num_buckets_ - 1)`, is `idx mod num_buckets_`; and `upperpower2(x)` is the
least power of two at or above `x` for every `1 <= x <= 2 ^ 63`. -/
theorem C20_bucket_count (raw : Nat → Fin 256) (max_num_keys : Nat)
    (hcap : max_num_keys < 2 ^ 32) (x : Nat) (hx1 : 1 ≤ x) (hx2 : x ≤ 2 ^ 63) :
    IsLeastPow2 (construct raw max_num_keys).num_buckets_ (max 1 (max_num_keys / 4)) ∧
    1 ≤ (construct raw max_num_keys).num_buckets_ ∧
    (construct raw max_num_keys).num_buckets_ ≤ 2 ^ 30 ∧
    (∀ idx, MOD idx (construct raw max_num_keys).num_buckets_
      = idx % (construct raw max_num_keys).num_buckets_) ∧
    IsLeastPow2 (upperpower2 x) x := by
  have hwf := construct_PowTwoBuckets raw max_num_keys hcap
  obtain ⟨h1, h2⟩ := construct_IsLeastPow2 raw max_num_keys hcap
  exact ⟨h1, PowTwoBuckets_pos hwf, h2, fun idx => MOD_eq_mod hwf idx,
    upperpower2_spec x hx1 hx2⟩

/-- C20, witness: capacity 1000 (250 rounds up to 256 buckets) and `x = 2 ^ 63`. -/
theorem C20_bucket_count_witness :
    (1000 : Nat) < 2 ^ 32 ∧ 1 ≤ 2 ^ 63 ∧ 2 ^ 63 ≤ 2 ^ 63 ∧
    (construct (fun _ => 0) 1000).num_buckets_ = 256 ∧ upperpower2 (2 ^ 63) = 2 ^ 63 ∧
    IsLeastPow2 (construct (fun _ => 0) 1000).num_buckets_ (max 1 (1000 / 4)) ∧
    IsLeastPow2 (upperpower2 (2 ^ 63)) (2 ^ 63) :=
  ⟨by decide, by decide, by decide, by decide, by decide,
    (C20_bucket_count (fun _ => 0) 1000 (by decide) (2 ^ 63) (by decide) (by decide)).1,
    (C20_bucket_count (fun _ => 0) 1000 (by decide) (2 ^ 63) (by decide) (by decide)).2.2.2.2⟩

end WormholeFilter
